import Mathlib

/-!
Verification of the structural extraction and chunking pipeline of the
egal_ai_mvp2 repository (Persian legal-document processing).

The Python source is shallowly embedded over `List Char`: a Python `str`
is modelled as its list of Unicode code points (Python `len`, slicing and
iteration are all code-point based, as are `List Char` operations here).
Each definition mirrors one function of the source; regular expressions
are specialised to the concrete patterns the source uses, with the
scanning/greedy semantics of Python's `re` module spelled out explicitly.
-/

namespace LegalAssistant

/-! ### Python string primitives -/

/-- Whitespace test used by Python's `str.split`, `str.strip` and the
regex class backslash-s.  The source texts only ever contain the ASCII
whitespace characters plus NBSP, which is what is modelled here. -/
def isPySpace (c : Char) : Bool :=
  c = ' ' || c = '\t' || c = '\n' || c = '\r' ||
  c = (Char.ofNat 11) || c = (Char.ofNat 12) || c = (Char.ofNat 160)

/-- Python `str.strip()`: drop leading and trailing whitespace. -/
def pyStrip (t : List Char) : List Char :=
  ((t.dropWhile isPySpace).reverse.dropWhile isPySpace).reverse

theorem dropWhileLen {α} (p : α → Bool) (l : List α) :
    (l.dropWhile p).length ≤ l.length := by
  induction l with
  | nil => simp
  | cons c cs ih =>
    rw [List.dropWhile_cons]
    split
    · exact le_trans ih (by simp)
    · simp

/-- Python `str.split()` with no separator: maximal non-whitespace runs,
empty pieces never produced. -/
def pySplit : List Char → List (List Char)
  | [] => []
  | c :: cs =>
    if isPySpace c then pySplit cs
    else (c :: cs.takeWhile (fun d => !isPySpace d)) ::
         pySplit (cs.dropWhile (fun d => !isPySpace d))
termination_by t => t.length
decreasing_by
  · simp only [List.length_cons]; omega
  · have h := dropWhileLen (fun d => !isPySpace d) cs
    simp only [List.length_cons]; omega

/-- Python `' '.join(words)`. -/
def joinSpace (ws : List (List Char)) : List Char :=
  List.intercalate [' '] ws

/-- Python `str.split(sep)` for a single-character separator: splits on
every occurrence, keeping empty pieces (`"a\n\nb".split('\n')` has three
elements). -/
def pySplitSep (sep : Char) (t : List Char) : List (List Char) :=
  t.splitOn sep

/-- Decimal digits of a natural number, as rendered by Python `str(n)`. -/
def natStr (n : Nat) : List Char :=
  Nat.toDigits 10 n

/-- Python format specifier `{:03d}`: decimal digits left-padded with
zeros to width three. -/
def pad3 (n : Nat) : List Char :=
  let d := natStr n
  List.replicate (3 - d.length) '0' ++ d

/-- Python `sub in s` for strings: `pat` occurs as a contiguous substring
of `t`. -/
def containsSub (t pat : List Char) : Bool :=
  match t with
  | [] => pat = []
  | _ :: rest => pat.isPrefixOf t || containsSub rest pat

/-- Python `s.find(pat)`: index of the first occurrence of `pat` in `t`,
or `-1` when `pat` does not occur. -/
def pyFind (t pat : List Char) : Int :=
  match t with
  | [] => if pat = [] then 0 else -1
  | _ :: rest =>
    if pat.isPrefixOf t then 0
    else
      let r := pyFind rest pat
      if r = -1 then -1 else r + 1

/-- Python `s.replace(old, '')`: remove every non-overlapping occurrence
of `old`, scanning left to right.  With `old` empty, `replace` inserts
the empty string and returns `t` unchanged. -/
def removeAll (old : List Char) (t : List Char) : List Char :=
  if h : old = [] then t
  else
    match t with
    | [] => []
    | c :: rest =>
      if old.isPrefixOf (c :: rest) then removeAll old ((c :: rest).drop old.length)
      else c :: removeAll old rest
termination_by t.length
decreasing_by
  · simp only [List.length_drop, List.length_cons]
    have : old.length ≠ 0 := fun hl => h (List.eq_nil_of_length_eq_zero hl)
    omega
  · simp only [List.length_cons]; omega

/-! ### PersianTextProcessor.normalize_persian_text

The source applies `unicodedata.normalize('NFKC', text)` followed by a
fixed character-substitution table (`char_map`), each entry applied in
insertion order with `str.replace`.  Every `char_map` entry is a single
character, so each `replace` is a character-wise map.

NFKC is modelled on the character set the substitution table touches:
the five precomposed Arabic letters with canonical decompositions into a
base letter plus one of the combining marks U+0653/U+0654/U+0655 (all of
canonical combining class 230, so canonical reordering is the identity
on the modelled texts), together with their primary composition pairs.
Characters outside this set are NFKC-inert in the modelled texts and are
treated as fixed points. -/

/-- Combining marks occurring in the modelled NFKC fragment:
U+0653 (madda above), U+0654 (hamza above), U+0655 (hamza below). -/
def isArabicMark (c : Char) : Bool :=
  c = (Char.ofNat 0x653) || c = (Char.ofNat 0x654) || c = (Char.ofNat 0x655)

/-- Full canonical decomposition of one character (modelled fragment):
U+0622..U+0626 decompose into a base letter and a combining mark. -/
def nfkcDecomposeChar (c : Char) : List Char :=
  if c = (Char.ofNat 0x622) then [Char.ofNat 0x627, Char.ofNat 0x653]
  else if c = (Char.ofNat 0x623) then [Char.ofNat 0x627, Char.ofNat 0x654]
  else if c = (Char.ofNat 0x624) then [Char.ofNat 0x648, Char.ofNat 0x654]
  else if c = (Char.ofNat 0x625) then [Char.ofNat 0x627, Char.ofNat 0x655]
  else if c = (Char.ofNat 0x626) then [Char.ofNat 0x64A, Char.ofNat 0x654]
  else [c]

/-- Canonical decomposition of a string. -/
def nfkcDecompose (t : List Char) : List Char :=
  t.flatMap nfkcDecomposeChar

/-- Primary composition pairs of the modelled fragment. -/
def nfkcPair (s m : Char) : Option Char :=
  if s = (Char.ofNat 0x627) ∧ m = (Char.ofNat 0x653) then some (Char.ofNat 0x622)
  else if s = (Char.ofNat 0x627) ∧ m = (Char.ofNat 0x654) then some (Char.ofNat 0x623)
  else if s = (Char.ofNat 0x648) ∧ m = (Char.ofNat 0x654) then some (Char.ofNat 0x624)
  else if s = (Char.ofNat 0x627) ∧ m = (Char.ofNat 0x655) then some (Char.ofNat 0x625)
  else if s = (Char.ofNat 0x64A) ∧ m = (Char.ofNat 0x654) then some (Char.ofNat 0x626)
  else none

mutual

/-- Canonical composition: walk the decomposed string keeping the last
starter; a combining mark composes with that starter unless an earlier
mark of the same combining class sits in between (blocking). -/
def nfkcCompose : List Char → List Char
  | [] => []
  | c :: rest => nfkcComposeStarter c rest
termination_by t => 3 * t.length

/-- Composition with `s` as the current starter. -/
def nfkcComposeStarter (s : Char) : List Char → List Char
  | [] => [s]
  | m :: rest =>
    if isArabicMark m then
      match nfkcPair s m with
      | some s' => nfkcComposeStarter s' rest
      | none => s :: nfkcSkipMarks (m :: rest)
    else s :: nfkcComposeStarter m rest
termination_by t => 3 * t.length + 2

/-- After a non-composable mark every further mark is blocked; copy marks
until the next starter. -/
def nfkcSkipMarks : List Char → List Char
  | [] => []
  | c :: rest =>
    if isArabicMark c then c :: nfkcSkipMarks rest
    else nfkcCompose (c :: rest)
termination_by t => 3 * t.length + 1

end

/-- Model of `unicodedata.normalize('NFKC', text)` on the modelled
character set: full canonical decomposition followed by canonical
composition (canonical reordering is the identity here, all modelled
marks having the same combining class). -/
def nfkc (t : List Char) : List Char :=
  nfkcCompose (nfkcDecompose t)

/-- The `char_map` table of `PersianTextProcessor.__init__`, in its
insertion order. -/
def charMapPairs : List (Char × Char) :=
  [('ك', 'ک'), ('ي', 'ی'), ('ء', 'ئ'), ('أ', 'ا'), ('إ', 'ا'), ('آ', 'ا'),
   ('ة', 'ه'), ('ؤ', 'و'), ('ئ', 'ی'), ('٠', '۰'), ('١', '۱'), ('٢', '۲'),
   ('٣', '۳'), ('٤', '۴'), ('٥', '۵'), ('٦', '۶'), ('٧', '۷'), ('٨', '۸'),
   ('٩', '۹')]

/-- One `text.replace(old_char, new_char)` step: a character-wise map,
both sides of every table entry being single characters. -/
def replaceChar (old new : Char) (t : List Char) : List Char :=
  t.map (fun c => if c = old then new else c)

/-- The `for old_char, new_char in self.char_map.items()` loop. -/
def charMapFold (t : List Char) : List Char :=
  charMapPairs.foldl (fun acc p => replaceChar p.1 p.2 acc) t

/-- PersianTextProcessor.normalize_persian_text: empty guard, NFKC, then
the substitution table. -/
def normalize_persian_text (t : List Char) : List Char :=
  if t = [] then []
  else charMapFold (nfkc t)

/-! ### PersianTextProcessor.clean_text -/

/-- Persian punctuation class of the `clean_text` regex. -/
def isPersianPunct (c : Char) : Bool :=
  c = '،' || c = '؛' || c = '؟' || c = '!' || c = '.'

/-- Regex sub of whitespace-plus with a single space: collapse every
maximal whitespace run to one space. -/
def collapseWs : List Char → List Char
  | [] => []
  | c :: cs =>
    if isPySpace c then ' ' :: collapseWs (cs.dropWhile isPySpace)
    else c :: collapseWs cs
termination_by t => t.length
decreasing_by
  · have h := dropWhileLen isPySpace cs
    simp only [List.length_cons]; omega
  · simp only [List.length_cons]; omega

/-- Regex sub replacing optional whitespace, a Persian punctuation mark,
optional whitespace, with the mark followed by one space.  `re.sub`
scans left to right for non-overlapping matches; a match starts at a
position from which zero or more whitespace characters are followed by a
punctuation character, and greedily consumes the trailing whitespace. -/
def punctSpace : List Char → List Char
  | [] => []
  | c :: cs =>
    if isPersianPunct c then c :: ' ' :: punctSpace (cs.dropWhile isPySpace)
    else if isPySpace c then
      match h : cs.dropWhile isPySpace with
      | p :: rest' =>
        if isPersianPunct p then p :: ' ' :: punctSpace (rest'.dropWhile isPySpace)
        else c :: punctSpace cs
      | [] => c :: cs
    else c :: punctSpace cs
termination_by t => t.length
decreasing_by
  · have h1 := dropWhileLen isPySpace cs
    simp only [List.length_cons]; omega
  · have h1 := dropWhileLen isPySpace cs
    have h2 := dropWhileLen isPySpace rest'
    rw [h] at h1
    simp only [List.length_cons] at h1 ⊢
    omega
  · simp only [List.length_cons]; omega
  · simp only [List.length_cons]; omega

/-- Paren test of the `clean_text` regex. -/
def isParen (c : Char) : Bool :=
  c = '(' || c = ')'

/-- Regex sub replacing optional whitespace, a parenthesis, optional
whitespace, with space, parenthesis, space; same scanning semantics as
`punctSpace`. -/
def parenSpace : List Char → List Char
  | [] => []
  | c :: cs =>
    if isParen c then ' ' :: c :: ' ' :: parenSpace (cs.dropWhile isPySpace)
    else if isPySpace c then
      match h : cs.dropWhile isPySpace with
      | p :: rest' =>
        if isParen p then ' ' :: p :: ' ' :: parenSpace (rest'.dropWhile isPySpace)
        else c :: parenSpace cs
      | [] => c :: cs
    else c :: parenSpace cs
termination_by t => t.length
decreasing_by
  · have h1 := dropWhileLen isPySpace cs
    simp only [List.length_cons]; omega
  · have h1 := dropWhileLen isPySpace cs
    have h2 := dropWhileLen isPySpace rest'
    rw [h] at h1
    simp only [List.length_cons] at h1 ⊢
    omega
  · simp only [List.length_cons]; omega
  · simp only [List.length_cons]; omega

/-- PersianTextProcessor.clean_text: normalization, whitespace collapse,
punctuation spacing, parenthesis spacing, final strip. -/
def clean_text (t : List Char) : List Char :=
  if t = [] then []
  else pyStrip (parenSpace (punctSpace (collapseWs (normalize_persian_text t))))

/-! ### Lemmas about the normalization stack -/

/-- The substitution table acting on one character: the table entries
applied in order (the composite sends U+0621 through U+0626 to U+06CC,
since the entry for U+0621 produces U+0626 which a later entry rewrites). -/
def charMapChar (c : Char) : Char :=
  if c = 'ك' then 'ک'
  else if c = 'ي' then 'ی'
  else if c = 'ء' then 'ی'
  else if c = 'أ' then 'ا'
  else if c = 'إ' then 'ا'
  else if c = 'آ' then 'ا'
  else if c = 'ة' then 'ه'
  else if c = 'ؤ' then 'و'
  else if c = 'ئ' then 'ی'
  else if c = '٠' then '۰'
  else if c = '١' then '۱'
  else if c = '٢' then '۲'
  else if c = '٣' then '۳'
  else if c = '٤' then '۴'
  else if c = '٥' then '۵'
  else if c = '٦' then '۶'
  else if c = '٧' then '۷'
  else if c = '٨' then '۸'
  else if c = '٩' then '۹'
  else c

theorem foldl_replaceChar_cons (ps : List (Char × Char)) (c : Char) (t : List Char) :
    ps.foldl (fun acc p => replaceChar p.1 p.2 acc) (c :: t) =
      (ps.foldl (fun a p => if a = p.1 then p.2 else a) c) ::
        ps.foldl (fun acc p => replaceChar p.1 p.2 acc) t := by
  induction ps generalizing c t with
  | nil => rfl
  | cons q qs ih => simp only [List.foldl_cons, replaceChar, List.map_cons]; exact ih _ _

theorem foldl_charMapPairs_eq (c : Char) :
    charMapPairs.foldl (fun a p => if a = p.1 then p.2 else a) c = charMapChar c := by
  unfold charMapPairs charMapChar
  simp only [List.foldl_cons, List.foldl_nil]
  all_goals by_cases h1 : c = 'ك'
  all_goals try (subst h1; rfl)
  all_goals simp only [if_neg h1]
  all_goals by_cases h2 : c = 'ي'
  all_goals try (subst h2; rfl)
  all_goals simp only [if_neg h2]
  all_goals by_cases h3 : c = 'ء'
  all_goals try (subst h3; rfl)
  all_goals simp only [if_neg h3]
  all_goals by_cases h4 : c = 'أ'
  all_goals try (subst h4; rfl)
  all_goals simp only [if_neg h4]
  all_goals by_cases h5 : c = 'إ'
  all_goals try (subst h5; rfl)
  all_goals simp only [if_neg h5]
  all_goals by_cases h6 : c = 'آ'
  all_goals try (subst h6; rfl)
  all_goals simp only [if_neg h6]
  all_goals by_cases h7 : c = 'ة'
  all_goals try (subst h7; rfl)
  all_goals simp only [if_neg h7]
  all_goals by_cases h8 : c = 'ؤ'
  all_goals try (subst h8; rfl)
  all_goals simp only [if_neg h8]
  all_goals by_cases h9 : c = 'ئ'
  all_goals try (subst h9; rfl)
  all_goals simp only [if_neg h9]
  all_goals by_cases h10 : c = '٠'
  all_goals try (subst h10; rfl)
  all_goals simp only [if_neg h10]
  all_goals by_cases h11 : c = '١'
  all_goals try (subst h11; rfl)
  all_goals simp only [if_neg h11]
  all_goals by_cases h12 : c = '٢'
  all_goals try (subst h12; rfl)
  all_goals simp only [if_neg h12]
  all_goals by_cases h13 : c = '٣'
  all_goals try (subst h13; rfl)
  all_goals simp only [if_neg h13]
  all_goals by_cases h14 : c = '٤'
  all_goals try (subst h14; rfl)
  all_goals simp only [if_neg h14]
  all_goals by_cases h15 : c = '٥'
  all_goals try (subst h15; rfl)
  all_goals simp only [if_neg h15]
  all_goals by_cases h16 : c = '٦'
  all_goals try (subst h16; rfl)
  all_goals simp only [if_neg h16]
  all_goals by_cases h17 : c = '٧'
  all_goals try (subst h17; rfl)
  all_goals simp only [if_neg h17]
  all_goals by_cases h18 : c = '٨'
  all_goals try (subst h18; rfl)
  all_goals simp only [if_neg h18]
  all_goals by_cases h19 : c = '٩'
  all_goals try (subst h19; rfl)
  all_goals simp only [if_neg h19]

theorem charMapFold_nil : charMapFold [] = [] := rfl

theorem charMapFold_cons (c : Char) (t : List Char) :
    charMapFold (c :: t) = charMapChar c :: charMapFold t := by
  unfold charMapFold
  rw [foldl_replaceChar_cons, foldl_charMapPairs_eq]

theorem charMapFold_eq_map (t : List Char) : charMapFold t = t.map charMapChar := by
  induction t with
  | nil => exact charMapFold_nil
  | cons c rest ih => rw [charMapFold_cons, ih, List.map_cons]

theorem charMapChar_idem (c : Char) : charMapChar (charMapChar c) = charMapChar c := by
  by_cases h1 : c = 'ك'
  · subst h1; rfl
  by_cases h2 : c = 'ي'
  · subst h2; rfl
  by_cases h3 : c = 'ء'
  · subst h3; rfl
  by_cases h4 : c = 'أ'
  · subst h4; rfl
  by_cases h5 : c = 'إ'
  · subst h5; rfl
  by_cases h6 : c = 'آ'
  · subst h6; rfl
  by_cases h7 : c = 'ة'
  · subst h7; rfl
  by_cases h8 : c = 'ؤ'
  · subst h8; rfl
  by_cases h9 : c = 'ئ'
  · subst h9; rfl
  by_cases h10 : c = '٠'
  · subst h10; rfl
  by_cases h11 : c = '١'
  · subst h11; rfl
  by_cases h12 : c = '٢'
  · subst h12; rfl
  by_cases h13 : c = '٣'
  · subst h13; rfl
  by_cases h14 : c = '٤'
  · subst h14; rfl
  by_cases h15 : c = '٥'
  · subst h15; rfl
  by_cases h16 : c = '٦'
  · subst h16; rfl
  by_cases h17 : c = '٧'
  · subst h17; rfl
  by_cases h18 : c = '٨'
  · subst h18; rfl
  by_cases h19 : c = '٩'
  · subst h19; rfl
  have hcc : charMapChar c = c := by
    unfold charMapChar
    simp only [if_neg h1, if_neg h2, if_neg h3, if_neg h4, if_neg h5, if_neg h6, if_neg h7, if_neg h8, if_neg h9, if_neg h10, if_neg h11, if_neg h12, if_neg h13, if_neg h14, if_neg h15, if_neg h16, if_neg h17, if_neg h18, if_neg h19]
  rw [hcc, hcc]

theorem charMapChar_nonmark (c : Char) (h : isArabicMark c = false) :
    isArabicMark (charMapChar c) = false := by
  by_cases h1 : c = 'ك'
  · subst h1; rfl
  by_cases h2 : c = 'ي'
  · subst h2; rfl
  by_cases h3 : c = 'ء'
  · subst h3; rfl
  by_cases h4 : c = 'أ'
  · subst h4; rfl
  by_cases h5 : c = 'إ'
  · subst h5; rfl
  by_cases h6 : c = 'آ'
  · subst h6; rfl
  by_cases h7 : c = 'ة'
  · subst h7; rfl
  by_cases h8 : c = 'ؤ'
  · subst h8; rfl
  by_cases h9 : c = 'ئ'
  · subst h9; rfl
  by_cases h10 : c = '٠'
  · subst h10; rfl
  by_cases h11 : c = '١'
  · subst h11; rfl
  by_cases h12 : c = '٢'
  · subst h12; rfl
  by_cases h13 : c = '٣'
  · subst h13; rfl
  by_cases h14 : c = '٤'
  · subst h14; rfl
  by_cases h15 : c = '٥'
  · subst h15; rfl
  by_cases h16 : c = '٦'
  · subst h16; rfl
  by_cases h17 : c = '٧'
  · subst h17; rfl
  by_cases h18 : c = '٨'
  · subst h18; rfl
  by_cases h19 : c = '٩'
  · subst h19; rfl
  have hcc : charMapChar c = c := by
    unfold charMapChar
    simp only [if_neg h1, if_neg h2, if_neg h3, if_neg h4, if_neg h5, if_neg h6, if_neg h7, if_neg h8, if_neg h9, if_neg h10, if_neg h11, if_neg h12, if_neg h13, if_neg h14, if_neg h15, if_neg h16, if_neg h17, if_neg h18, if_neg h19]
  rw [hcc]
  exact h

/-- The decomposition of a mark-free string is empty or begins with a
starter. -/
theorem nfkcDecompose_head_nonmark (t : List Char)
    (h : ∀ c ∈ t, isArabicMark c = false) :
    nfkcDecompose t = [] ∨
      ∃ d r, nfkcDecompose t = d :: r ∧ isArabicMark d = false := by
  match t with
  | [] => exact Or.inl rfl
  | c :: rest =>
    right
    have hc := h c (by simp)
    rw [nfkcDecompose, List.flatMap_cons]
    unfold nfkcDecomposeChar
    split_ifs with h1 h2 h3 h4 h5
    · exact ⟨_, _, rfl, rfl⟩
    · exact ⟨_, _, rfl, rfl⟩
    · exact ⟨_, _, rfl, rfl⟩
    · exact ⟨_, _, rfl, rfl⟩
    · exact ⟨_, _, rfl, rfl⟩
    · exact ⟨_, _, rfl, hc⟩

theorem composeStarter_pair (s m s' : Char) (l : List Char)
    (hm : isArabicMark m = true) (hp : nfkcPair s m = some s') :
    nfkcComposeStarter s (m :: l) = nfkcComposeStarter s' l := by
  rw [nfkcComposeStarter, hm]
  simp only [if_true]
  rw [hp]

theorem composeStarter_nonmark_head (s : Char) (l : List Char)
    (h : l = [] ∨ ∃ d r, l = d :: r ∧ isArabicMark d = false) :
    nfkcComposeStarter s l = s :: nfkcCompose l := by
  rcases h with h | ⟨d, r, rfl, hd⟩
  · subst h
    rw [nfkcComposeStarter, nfkcCompose]
  · rw [nfkcComposeStarter, hd, nfkcCompose]
    simp only [Bool.false_eq_true, if_false]

/-- NFKC is the identity on mark-free strings: every decomposition it
introduces is immediately recomposed. -/
theorem nfkc_markfree (t : List Char) (h : ∀ c ∈ t, isArabicMark c = false) :
    nfkc t = t := by
  induction t with
  | nil => simp [nfkc, nfkcDecompose, nfkcCompose]
  | cons c rest ih =>
    have hc : isArabicMark c = false := h c (by simp)
    have hrest : ∀ x ∈ rest, isArabicMark x = false := fun x hx => h x (by simp [hx])
    have ihr : nfkcCompose (nfkcDecompose rest) = rest := ih hrest
    have hhead := nfkcDecompose_head_nonmark rest hrest
    show nfkcCompose (nfkcDecompose (c :: rest)) = c :: rest
    rw [nfkcDecompose, List.flatMap_cons]
    show nfkcCompose (nfkcDecomposeChar c ++ nfkcDecompose rest) = c :: rest
    unfold nfkcDecomposeChar
    split_ifs with h1 h2 h3 h4 h5
    · subst h1
      rw [List.cons_append, List.cons_append, List.nil_append]
      rw [nfkcCompose]
      rw [composeStarter_pair (Char.ofNat 0x627) (Char.ofNat 0x653) (Char.ofNat 0x622) _ (by decide) (by decide)]
      rw [composeStarter_nonmark_head _ _ hhead, ihr]
    · subst h2
      rw [List.cons_append, List.cons_append, List.nil_append]
      rw [nfkcCompose]
      rw [composeStarter_pair (Char.ofNat 0x627) (Char.ofNat 0x654) (Char.ofNat 0x623) _ (by decide) (by decide)]
      rw [composeStarter_nonmark_head _ _ hhead, ihr]
    · subst h3
      rw [List.cons_append, List.cons_append, List.nil_append]
      rw [nfkcCompose]
      rw [composeStarter_pair (Char.ofNat 0x648) (Char.ofNat 0x654) (Char.ofNat 0x624) _ (by decide) (by decide)]
      rw [composeStarter_nonmark_head _ _ hhead, ihr]
    · subst h4
      rw [List.cons_append, List.cons_append, List.nil_append]
      rw [nfkcCompose]
      rw [composeStarter_pair (Char.ofNat 0x627) (Char.ofNat 0x655) (Char.ofNat 0x625) _ (by decide) (by decide)]
      rw [composeStarter_nonmark_head _ _ hhead, ihr]
    · subst h5
      rw [List.cons_append, List.cons_append, List.nil_append]
      rw [nfkcCompose]
      rw [composeStarter_pair (Char.ofNat 0x64a) (Char.ofNat 0x654) (Char.ofNat 0x626) _ (by decide) (by decide)]
      rw [composeStarter_nonmark_head _ _ hhead, ihr]
    · rw [List.singleton_append, nfkcCompose]
      rw [composeStarter_nonmark_head _ _ hhead, ihr]

/-! ### Claim C7: idempotence of normalization -/

/-- C7 counterexample: `normalize` is not idempotent.  On the two-code-point
input U+0623 U+0654 (alef-with-hamza followed by a combining hamza above),
the first pass maps U+0623 to U+0627 leaving the stray mark, and the second
pass recombines U+0627 with the mark into U+0623 and maps it away again, so
the second pass shortens the string.  (Checked against CPython's
`unicodedata.normalize('NFKC', ...)` and `str.replace` semantics.) -/
theorem C7_counterexample :
    normalize_persian_text
        (normalize_persian_text [Char.ofNat 0x623, Char.ofNat 0x654]) ≠
      normalize_persian_text [Char.ofNat 0x623, Char.ofNat 0x654] := by
  have h1 : normalize_persian_text [Char.ofNat 0x623, Char.ofNat 0x654] =
      [Char.ofNat 0x627, Char.ofNat 0x654] := by
    simp +decide [normalize_persian_text, nfkc, nfkcDecompose, nfkcDecomposeChar,
      nfkcCompose, nfkcComposeStarter, nfkcSkipMarks, nfkcPair, isArabicMark,
      charMapFold_eq_map, charMapChar]
  have h2 : normalize_persian_text [Char.ofNat 0x627, Char.ofNat 0x654] =
      [Char.ofNat 0x627] := by
    simp +decide [normalize_persian_text, nfkc, nfkcDecompose, nfkcDecomposeChar,
      nfkcCompose, nfkcComposeStarter, nfkcSkipMarks, nfkcPair, isArabicMark,
      charMapFold_eq_map, charMapChar]
  rw [h1, h2]
  decide

/-- C7 amended: `normalize_persian_text` is idempotent on every string that
contains none of the Arabic combining marks U+0653, U+0654, U+0655; on such
strings NFKC is the identity and the substitution table eliminates all of
its own source characters in a single pass. -/
theorem C7_amended (t : List Char) (h : ∀ c ∈ t, isArabicMark c = false) :
    normalize_persian_text (normalize_persian_text t) = normalize_persian_text t := by
  by_cases ht : t = []
  · subst ht; rfl
  · have h1 : normalize_persian_text t = charMapFold t := by
      unfold normalize_persian_text
      rw [if_neg ht, nfkc_markfree t h]
    have humark : ∀ c ∈ charMapFold t, isArabicMark c = false := by
      rw [charMapFold_eq_map]
      rintro c hc
      obtain ⟨d, hd, rfl⟩ := List.mem_map.mp hc
      exact charMapChar_nonmark d (h d hd)
    have hune : charMapFold t ≠ [] := by
      rw [charMapFold_eq_map]
      simpa using ht
    rw [h1]
    unfold normalize_persian_text
    rw [if_neg hune, nfkc_markfree _ humark]
    rw [charMapFold_eq_map, charMapFold_eq_map, List.map_map]
    exact List.map_congr_left (fun c _ => charMapChar_idem c)

/-- C7 witness: the amended idempotence theorem applied at a concrete
mark-free Persian string. -/
theorem C7_amended_witness :
    (∀ c ∈ String.toList "قانون ماده ۱", isArabicMark c = false) ∧
      normalize_persian_text (normalize_persian_text (String.toList "قانون ماده ۱")) =
        normalize_persian_text (String.toList "قانون ماده ۱") :=
  ⟨by decide, C7_amended (String.toList "قانون ماده ۱") (by decide)⟩

/-! ### Claim C8: properties of clean_text -/

theorem punct_not_space (c : Char) (h : isPersianPunct c = true) : isPySpace c = false := by
  simp only [isPersianPunct, Bool.or_eq_true, decide_eq_true_eq] at h
  rcases h with ((((rfl | rfl) | rfl) | rfl) | rfl) <;> rfl

theorem paren_not_space (c : Char) (h : isParen c = true) : isPySpace c = false := by
  simp only [isParen, Bool.or_eq_true, decide_eq_true_eq] at h
  rcases h with rfl | rfl <;> rfl

theorem mem_of_mem_dropWhile {α} (p : α → Bool) (l : List α) (x : α)
    (h : x ∈ l.dropWhile p) : x ∈ l := by
  induction l with
  | nil => simpa using h
  | cons c cs ih =>
    rw [List.dropWhile_cons] at h
    split at h
    · exact List.mem_cons_of_mem c (ih h)
    · exact h

theorem mem_of_mem_pyStrip (t : List Char) (x : Char) (h : x ∈ pyStrip t) : x ∈ t := by
  unfold pyStrip at h
  rw [List.mem_reverse] at h
  have h2 := mem_of_mem_dropWhile _ _ _ h
  rw [List.mem_reverse] at h2
  exact mem_of_mem_dropWhile _ _ _ h2

theorem collapseWs_onlySpace (t : List Char) :
    ∀ c ∈ collapseWs t, isPySpace c = true → c = ' ' := by
  induction t using collapseWs.induct with
  | case1 => intro c hc; simp [collapseWs] at hc
  | case2 c cs hws ih =>
    rw [collapseWs, if_pos hws]
    intro x hx hxs
    rcases List.mem_cons.mp hx with rfl | hx
    · rfl
    · exact ih x hx hxs
  | case3 c cs hws ih =>
    rw [collapseWs, if_neg hws]
    intro x hx hxs
    rcases List.mem_cons.mp hx with rfl | hx
    · exact absurd hxs (by simpa using hws)
    · exact ih x hx hxs

theorem punctSpace_onlySpace (t : List Char)
    (ht : ∀ c ∈ t, isPySpace c = true → c = ' ') :
    ∀ c ∈ punctSpace t, isPySpace c = true → c = ' ' := by
  induction t using punctSpace.induct with
  | case1 => intro c hc; simp [punctSpace] at hc
  | case2 c cs hp ih =>
    rw [punctSpace, if_pos hp]
    intro x hx hxs
    rcases List.mem_cons.mp hx with rfl | hx
    · exact absurd hxs (by simp [punct_not_space x hp])
    · rcases List.mem_cons.mp hx with rfl | hx
      · rfl
      · refine ih (fun d hd => ht d (List.mem_cons_of_mem c (mem_of_mem_dropWhile _ _ _ hd))) x hx hxs
  | case3 c cs hp hs p rest' hmatch hpunct ih =>
    rw [punctSpace, if_neg hp, if_pos hs, hmatch]
    simp only [if_pos hpunct]
    intro x hx hxs
    have hsub : ∀ d ∈ p :: rest', d ∈ c :: cs := by
      intro d hd
      rw [← hmatch] at hd
      exact List.mem_cons_of_mem c (mem_of_mem_dropWhile _ _ _ hd)
    rcases List.mem_cons.mp hx with rfl | hx
    · exact absurd hxs (by simp [punct_not_space x hpunct])
    · rcases List.mem_cons.mp hx with rfl | hx
      · rfl
      · refine ih (fun d hd => ht d (hsub d (List.mem_cons_of_mem p (mem_of_mem_dropWhile _ _ _ hd)))) x hx hxs
  | case4 c cs hp hs p rest' hmatch hpunct ih =>
    rw [punctSpace, if_neg hp, if_pos hs, hmatch]
    simp only [if_neg hpunct]
    intro x hx hxs
    rcases List.mem_cons.mp hx with rfl | hx
    · exact ht x (by simp) hxs
    · exact ih (fun d hd => ht d (List.mem_cons_of_mem c hd)) x hx hxs
  | case5 c cs hp hs hmatch =>
    rw [punctSpace, if_neg hp, if_pos hs, hmatch]
    exact ht
  | case6 c cs hp hs ih =>
    rw [punctSpace, if_neg hp, if_neg hs]
    intro x hx hxs
    rcases List.mem_cons.mp hx with rfl | hx
    · exact ht x (by simp) hxs
    · exact ih (fun d hd => ht d (List.mem_cons_of_mem c hd)) x hx hxs

theorem parenSpace_onlySpace (t : List Char)
    (ht : ∀ c ∈ t, isPySpace c = true → c = ' ') :
    ∀ c ∈ parenSpace t, isPySpace c = true → c = ' ' := by
  induction t using parenSpace.induct with
  | case1 => intro c hc; simp [parenSpace] at hc
  | case2 c cs hp ih =>
    rw [parenSpace, if_pos hp]
    intro x hx hxs
    rcases List.mem_cons.mp hx with rfl | hx
    · rfl
    · rcases List.mem_cons.mp hx with rfl | hx
      · exact absurd hxs (by simp [paren_not_space x hp])
      · rcases List.mem_cons.mp hx with rfl | hx
        · rfl
        · refine ih (fun d hd => ht d (List.mem_cons_of_mem c (mem_of_mem_dropWhile _ _ _ hd))) x hx hxs
  | case3 c cs hp hs p rest' hmatch hpunct ih =>
    rw [parenSpace, if_neg hp, if_pos hs, hmatch]
    simp only [if_pos hpunct]
    intro x hx hxs
    have hsub : ∀ d ∈ p :: rest', d ∈ c :: cs := by
      intro d hd
      rw [← hmatch] at hd
      exact List.mem_cons_of_mem c (mem_of_mem_dropWhile _ _ _ hd)
    rcases List.mem_cons.mp hx with rfl | hx
    · rfl
    · rcases List.mem_cons.mp hx with rfl | hx
      · exact absurd hxs (by simp [paren_not_space x hpunct])
      · rcases List.mem_cons.mp hx with rfl | hx
        · rfl
        · refine ih (fun d hd => ht d (hsub d (List.mem_cons_of_mem p (mem_of_mem_dropWhile _ _ _ hd)))) x hx hxs
  | case4 c cs hp hs p rest' hmatch hpunct ih =>
    rw [parenSpace, if_neg hp, if_pos hs, hmatch]
    simp only [if_neg hpunct]
    intro x hx hxs
    rcases List.mem_cons.mp hx with rfl | hx
    · exact ht x (by simp) hxs
    · exact ih (fun d hd => ht d (List.mem_cons_of_mem c hd)) x hx hxs
  | case5 c cs hp hs hmatch =>
    rw [parenSpace, if_neg hp, if_pos hs, hmatch]
    exact ht
  | case6 c cs hp hs ih =>
    rw [parenSpace, if_neg hp, if_neg hs]
    intro x hx hxs
    rcases List.mem_cons.mp hx with rfl | hx
    · exact ht x (by simp) hxs
    · exact ih (fun d hd => ht d (List.mem_cons_of_mem c hd)) x hx hxs

theorem headq_dropWhile_not {α} (p : α → Bool) (l : List α) (c : α)
    (h : (l.dropWhile p).head? = some c) : p c = false := by
  induction l with
  | nil => simp at h
  | cons d ds ih =>
    rw [List.dropWhile_cons] at h
    by_cases hd : p d = true
    · rw [if_pos hd] at h; exact ih h
    · rw [if_neg hd] at h
      simp at h
      subst h
      simpa using hd

theorem getLastq_dropWhile {α} (p : α → Bool) (l : List α)
    (h : l.dropWhile p ≠ []) : (l.dropWhile p).getLast? = l.getLast? := by
  induction l with
  | nil => simp at h
  | cons d ds ih =>
    rw [List.dropWhile_cons]
    rw [List.dropWhile_cons] at h
    by_cases hd : p d = true
    · rw [if_pos hd]
      rw [if_pos hd] at h
      rw [ih h]
      have hne : ds ≠ [] := by
        intro hds
        rw [hds] at h
        exact h rfl
      obtain ⟨e, es, rfl⟩ := List.exists_cons_of_ne_nil hne
      rw [List.getLast?_cons_cons]
    · rw [if_neg hd]

theorem pyStrip_headq (t : List Char) (c : Char)
    (h : (pyStrip t).head? = some c) : isPySpace c = false := by
  unfold pyStrip at h
  rw [List.head?_reverse] at h
  by_cases hB : (t.dropWhile isPySpace).reverse.dropWhile isPySpace = []
  · rw [hB] at h; simp at h
  · rw [getLastq_dropWhile _ _ hB, List.getLast?_reverse] at h
    exact headq_dropWhile_not _ _ _ h

theorem pyStrip_getLastq (t : List Char) (c : Char)
    (h : (pyStrip t).getLast? = some c) : isPySpace c = false := by
  unfold pyStrip at h
  rw [List.getLast?_reverse] at h
  exact headq_dropWhile_not _ _ _ h

/-- C8 counterexample: on input "()" the parenthesis pass inserts a space
after the first parenthesis and another before the second, yielding two
consecutive spaces, and the leading parenthesis ends up with no space on
its left after the final trim — refuting both the no-double-whitespace
clause and the spaces-around-parentheses clause of the claim. -/
theorem C8_counterexample :
    clean_text ['(', ')'] = ['(', ' ', ' ', ')'] ∧
      (clean_text ['(', ')'])[1]? = some ' ' ∧
      (clean_text ['(', ')'])[2]? = some ' ' ∧
      (clean_text ['(', ')']).head? = some '(' := by
  have h : clean_text ['(', ')'] = ['(', ' ', ' ', ')'] := by
    simp +decide [clean_text, normalize_persian_text, nfkc, nfkcDecompose,
      nfkcDecomposeChar, nfkcCompose, nfkcComposeStarter, nfkcSkipMarks, nfkcPair,
      isArabicMark, charMapFold_eq_map, charMapChar, collapseWs, punctSpace,
      parenSpace, pyStrip, isPersianPunct, isParen, isPySpace]
  refine ⟨h, ?_, ?_, ?_⟩ <;> rw [h] <;> rfl

/-- C8 amended: what `clean_text` actually guarantees for every input is
that the only whitespace character in its output is the plain space, and
that the output carries no leading or trailing whitespace; the punctuation
and parenthesis spacing conventions hold only at intermediate stages and
can be broken in the final output (see the counterexample). -/
theorem C8_amended (t : List Char) :
    (∀ c ∈ clean_text t, isPySpace c = true → c = ' ') ∧
      (∀ c, (clean_text t).head? = some c → isPySpace c = false) ∧
      (∀ c, (clean_text t).getLast? = some c → isPySpace c = false) := by
  by_cases ht : t = []
  · subst ht
    refine ⟨?_, ?_, ?_⟩ <;> intro c hc <;> simp [clean_text] at hc
  · unfold clean_text
    rw [if_neg ht]
    refine ⟨?_, ?_, ?_⟩
    · intro c hc hcs
      have h1 := mem_of_mem_pyStrip _ _ hc
      exact parenSpace_onlySpace _ (punctSpace_onlySpace _ (collapseWs_onlySpace _)) c h1 hcs
    · intro c hc
      exact pyStrip_headq _ _ hc
    · intro c hc
      exact pyStrip_getLastq _ _ hc

/-- C8 witness: the amended theorem applied at a concrete input, its
conclusions evaluated. -/
theorem C8_amended_witness :
    (∀ c ∈ clean_text (String.toList "سلام  دنیا"), isPySpace c = true → c = ' ') ∧
      (∀ c, (clean_text (String.toList "سلام  دنیا")).head? = some c → isPySpace c = false) ∧
      (∀ c, (clean_text (String.toList "سلام  دنیا")).getLast? = some c → isPySpace c = false) :=
  C8_amended (String.toList "سلام  دنیا")

/-! ### BoundaryExtractor: law separators (DocumentSplitter.identify_law_boundaries) -/

theorem takeWhileLen {α} (p : α → Bool) (l : List α) :
    (l.takeWhile p).length ≤ l.length := by
  induction l with
  | nil => simp
  | cons c cs ih =>
    rw [List.takeWhile_cons]
    split
    · simpa using ih
    · simp

/-- Matches of the law-separator regex (ten or more asterisks): scanning
left to right, a maximal run of at least ten asterisks is one greedy
match.  Returns match (start, end) offsets relative to position `i`. -/
def asteriskMatches : List Char → Nat → List (Nat × Nat)
  | [], _ => []
  | c :: rest, i =>
    if c = '*' then
      if 10 ≤ 1 + (rest.takeWhile (fun d => d = '*')).length then
        (i, i + (1 + (rest.takeWhile (fun d => d = '*')).length)) ::
          asteriskMatches (rest.dropWhile (fun d => d = '*'))
            (i + (1 + (rest.takeWhile (fun d => d = '*')).length))
      else
        asteriskMatches (rest.dropWhile (fun d => d = '*'))
          (i + (1 + (rest.takeWhile (fun d => d = '*')).length))
    else asteriskMatches rest (i + 1)
termination_by t _ => t.length
decreasing_by
  · have h := dropWhileLen (fun d => d = '*') rest
    simp only [List.length_cons]; omega
  · have h := dropWhileLen (fun d => d = '*') rest
    simp only [List.length_cons]; omega
  · simp only [List.length_cons]; omega

/-- The boundary-building loop of `identify_law_boundaries`: thread the
running start position over the separator end positions. -/
def boundariesGo (start : Nat) : List Nat → List (Nat × Nat)
  | [] => []
  | sp :: rest => (if start < sp then [(start, sp)] else []) ++ boundariesGo sp rest

/-- DocumentSplitter.identify_law_boundaries: separator match ends,
the boundary loop, and the final tail section when text remains. -/
def identify_law_boundaries (t : List Char) : List (Nat × Nat) :=
  let seps := (asteriskMatches t 0).map (fun m => m.2)
  let lastStart := seps.getLastD 0
  boundariesGo 0 seps ++ (if lastStart < t.length then [(lastStart, t.length)] else [])

/-! ### BoundaryExtractor: chapter headers (LegalDocumentParser.extract_chapters)

The chapter regex (MULTILINE) anchors at a line start, requires the
literal word for chapter, one or more whitespace characters, a nonempty
non-whitespace token (group 1 ends here), then optional whitespace, an
optional dash, optional whitespace and the rest of the line (group 2).
The two inner whitespace-star pieces may greedily cross newlines; the
dollar anchor is then satisfied at the next newline or at end of text,
and no backtracking can produce a different overall match, so the greedy
walk below is the full `re.finditer` semantics for this pattern. -/

def isDash (c : Char) : Bool :=
  c = '-' || c = '–' || c = '—'

/-- One regex match: its span and its two captured groups. -/
structure ReMatch where
  mstart : Nat
  mend : Nat
  g1 : List Char
  g2 : List Char
deriving Repr, DecidableEq

/-- Attempt the chapter-header pattern at the head of `l` (which must be a
line-start position).  Returns the match length and the two groups. -/
def tryChapterAt (l : List Char) : Option (Nat × List Char × List Char) :=
  if ['ف', 'ص', 'ل'].isPrefixOf l then
    let rest := l.drop 3
    let w1 := (rest.takeWhile isPySpace).length
    if w1 = 0 then none
    else
      let r1 := rest.drop w1
      let v := (r1.takeWhile (fun c => !isPySpace c)).length
      if v = 0 then none
      else
        let r2 := r1.drop v
        let w2 := (r2.takeWhile isPySpace).length
        let r3 := r2.drop w2
        let d := if (r3.take 1).any isDash then 1 else 0
        let r4 := r3.drop d
        let w3 := (r4.takeWhile isPySpace).length
        let r5 := r4.drop w3
        let g2 := r5.takeWhile (fun c => c ≠ '\n')
        some (3 + w1 + v + w2 + d + w3 + g2.length, l.take (3 + w1 + v), g2)
  else none

theorem tryChapterAt_bound (l : List Char) (n : Nat) (g1 g2 : List Char)
    (h : tryChapterAt l = some (n, g1, g2)) : 1 ≤ n ∧ n ≤ l.length := by
  rw [tryChapterAt] at h
  by_cases hpre : (['ف', 'ص', 'ل'].isPrefixOf l) = true
  swap
  · rw [if_neg hpre] at h; exact absurd h (by simp)
  rw [if_pos hpre] at h
  have hlen3 : 3 ≤ l.length := by
    have := List.IsPrefix.length_le (List.isPrefixOf_iff_prefix.mp hpre)
    simpa using this
  set rest := l.drop 3 with hrest
  have hlrest : rest.length = l.length - 3 := by rw [hrest, List.length_drop]
  by_cases hw1 : (rest.takeWhile isPySpace).length = 0
  · rw [if_pos hw1] at h; exact absurd h (by simp)
  rw [if_neg hw1] at h
  set w1 := (rest.takeWhile isPySpace).length with hw1def
  set r1 := rest.drop w1 with hr1
  by_cases hv : (r1.takeWhile (fun c => !isPySpace c)).length = 0
  · rw [if_pos hv] at h; exact absurd h (by simp)
  rw [if_neg hv] at h
  simp only [Option.some.injEq, Prod.mk.injEq] at h
  obtain ⟨hn, -, -⟩ := h
  subst hn
  refine ⟨by omega, ?_⟩
  have h1 := takeWhileLen isPySpace rest
  have hl1 : r1.length = rest.length - w1 := by rw [hr1, List.length_drop]
  have h2 := takeWhileLen (fun c => !isPySpace c) r1
  set v := (r1.takeWhile (fun c => !isPySpace c)).length with hvdef
  set r2 := r1.drop v with hr2
  have hl2 : r2.length = r1.length - v := by rw [hr2, List.length_drop]
  have h3 := takeWhileLen isPySpace r2
  set w2 := (r2.takeWhile isPySpace).length with hw2def
  set r3 := r2.drop w2 with hr3
  have hl3 : r3.length = r2.length - w2 := by rw [hr3, List.length_drop]
  set d := (if (r3.take 1).any isDash then 1 else 0) with hd
  have hdle : d ≤ r3.length := by
    rw [hd]
    split
    · rename_i hany
      match r3, hany with
      | c :: r, _ => simp
      | [], hany => simp at hany
    · simp
  set r4 := r3.drop d with hr4
  have hl4 : r4.length = r3.length - d := by rw [hr4, List.length_drop]
  have h5 := takeWhileLen isPySpace r4
  set w3 := (r4.takeWhile isPySpace).length with hw3def
  set r5 := r4.drop w3 with hr5
  have hl5 : r5.length = r4.length - w3 := by rw [hr5, List.length_drop]
  have h6 := takeWhileLen (fun c => c ≠ '\n') r5
  omega

/-- The `re.finditer` scan for chapter headers with the MULTILINE flag:
positions where a caret matches are the string start and every position
following a newline; after a (nonempty) match, scanning resumes at its
end, which is never immediately after a newline. -/
def chapterScan : List Char → Nat → Bool → List ReMatch
  | [], _, _ => []
  | c :: rest, i, atLineStart =>
    if atLineStart then
      match htry : tryChapterAt (c :: rest) with
      | some (n, g1, g2) =>
        { mstart := i, mend := i + n, g1 := g1, g2 := g2 } ::
          chapterScan ((c :: rest).drop n) (i + n) false
      | none => chapterScan rest (i + 1) (c = '\n')
    else chapterScan rest (i + 1) (c = '\n')
termination_by t _ _ => t.length
decreasing_by
  · have hb := tryChapterAt_bound _ _ _ _ htry
    simp only [List.length_drop, List.length_cons] at *
    omega
  · simp only [List.length_cons]; omega
  · simp only [List.length_cons]; omega

/-- One parsed chapter-header tuple of `extract_chapters`. -/
structure ChapterSpan where
  num : List Char
  title : List Char
  startPos : Nat
  endPos : Nat
deriving Repr, DecidableEq

/-- The span/end computation of `extract_chapters`: each span ends at the
start of the next chapter match, the last at end of text. -/
def chapterSpansOf (tlen : Nat) : List ReMatch → List ChapterSpan
  | [] => []
  | [m] => [{ num := pyStrip m.g1, title := pyStrip m.g2,
              startPos := m.mstart, endPos := tlen }]
  | m :: m' :: rest =>
    { num := pyStrip m.g1, title := pyStrip m.g2,
      startPos := m.mstart, endPos := m'.mstart } :: chapterSpansOf tlen (m' :: rest)

/-- LegalDocumentParser.extract_chapters (number and title are the
stripped regex groups; the source strips group 1 and, for group 2,
strips it when nonempty and otherwise keeps the empty string, which is
the same thing). -/
def extract_chapters (t : List Char) : List ChapterSpan :=
  chapterSpansOf t.length (chapterScan t 0 true)

/-! ### DocumentSplitter: quality scoring and law extraction

Floating point: the source computes the quality score as a sum of
`0.2`-weighted checks compared against `0.4`.  At the values that can
arise (k times 0.2 for k = 0..5, capped at 1.0) IEEE-754 doubles order
exactly like the rationals k/5 against 2/5, so the score is modelled as
a rational with weight 1/5 and threshold 2/5. -/

/-- Decimal digit class matched by the regex digit escape in Python's
Unicode mode, for the scripts these texts contain: ASCII, Persian
(U+06F0..U+06F9) and Arabic-Indic (U+0660..U+0669) digits. -/
def isReDigit (c : Char) : Bool :=
  ('0' ≤ c && c ≤ '9') || ('۰' ≤ c && c ≤ '۹') || ('٠' ≤ c && c ≤ '٩')

/-- Persian digit class `[۰-۹]`. -/
def isPersianDigit (c : Char) : Bool :=
  '۰' ≤ c && c ≤ '۹'

/-- Word-character class of the regex word escape, for the scripts these
texts contain: ASCII alphanumerics, underscore, and the Arabic block
U+0600..U+06FF. -/
def isWordChar (c : Char) : Bool :=
  ('a' ≤ c && c ≤ 'z') || ('A' ≤ c && c ≤ 'Z') || ('0' ≤ c && c ≤ '9') ||
  c = '_' || ((Char.ofNat 0x600) ≤ c && c ≤ (Char.ofNat 0x6FF))

/-- PersianTextProcessor.is_valid_persian_text: at least three characters
after stripping, and at least thirty percent of word characters from the
Arabic block. -/
def is_valid_persian_text (t : List Char) : Bool :=
  if t = [] || (pyStrip t).length < 3 then false
  else
    let persianCount := (t.filter (fun c => (Char.ofNat 0x600) ≤ c && c ≤ (Char.ofNat 0x6FF))).length
    let totalChars := (t.filter isWordChar).length
    if totalChars = 0 then false
    else 3 * totalChars ≤ 10 * persianCount

/-- Occurrence of the article-number pattern (the word for article,
optional whitespace, one or more Persian digits) anywhere in the text. -/
def madehNumAt (l : List Char) : Bool :=
  "ماده".toList.isPrefixOf l &&
    (match (l.drop 4).drop ((l.drop 4).takeWhile isPySpace).length with
     | c :: _ => isPersianDigit c
     | [] => false)

def searchMadehNum : List Char → Bool
  | [] => false
  | c :: rest => madehNumAt (c :: rest) || searchMadehNum rest

/-- Occurrence of the single-article pattern (the word for article,
optional whitespace, the word for unified) anywhere in the text. -/
def madehVahedeAt (l : List Char) : Bool :=
  "ماده".toList.isPrefixOf l &&
    "واحده".toList.isPrefixOf ((l.drop 4).drop ((l.drop 4).takeWhile isPySpace).length)

def searchMadehVahede : List Char → Bool
  | [] => false
  | c :: rest => madehVahedeAt (c :: rest) || searchMadehVahede rest

/-- QUALITY_ASSURANCE minimum law length. -/
def min_law_length : Nat := 50

/-- The four structural indicator words of `calculate_quality_score`. -/
def legalIndicators : List (List Char) :=
  ["ماده".toList, "تبصره".toList, "بند".toList, "فصل".toList]

/-- DocumentSplitter.calculate_quality_score: five 1/5-weighted checks,
capped at one. -/
def calculate_quality_score (law_text title : List Char) : ℚ :=
  let s1 : ℚ := if min_law_length ≤ law_text.length then 1/5 else 0
  let s2 : ℚ := if title ≠ [] ∧ 10 < title.length then 1/5 else 0
  let s3 : ℚ := if is_valid_persian_text law_text then 1/5 else 0
  let s4 : ℚ := if 2 ≤ (legalIndicators.countP (fun w => containsSub law_text w)) then 1/5 else 0
  let s5 : ℚ := if searchMadehNum law_text || searchMadehVahede law_text then 1/5 else 0
  min (s1 + s2 + s3 + s4 + s5) 1

/-! ### DocumentSplitter.extract_law_title_and_date

The title regex is caret, lazy group 1, whitespace star, a literal open
parenthesis and the approval word, whitespace plus, lazy group 2, a
closing parenthesis, dollar.  It is searched in a string that contains no
newline (the first lines are joined with spaces), so dollar means end of
string; the lazy outer group makes the engine try group-1 lengths in
increasing order, and within one choice the greedy whitespace pieces are
forced, except that the whitespace-plus may шrink to leave group 2 its
required single character. -/

/-- Match the date alternation member: one-or-two digits, slash,
one-or-two digits, slash, exactly `y` digits.  The one-or-two quantifier
is greedy; shrinking it never helps because the following literal slash
is not a digit. -/
def tryDateAlt (isD : Char → Bool) (y : Nat) (l : List Char) : Option (List Char) :=
  let d1 := min 2 (l.takeWhile isD).length
  if d1 = 0 then none
  else
    let r1 := l.drop d1
    match r1 with
    | '/' :: r2 =>
      let d2 := min 2 (r2.takeWhile isD).length
      if d2 = 0 then none
      else
        let r3 := r2.drop d2
        match r3 with
        | '/' :: r4 =>
          if (r4.take y).length = y ∧ (r4.take y).all isD then
            some (l.take d1 ++ '/' :: r2.take d2 ++ '/' :: r4.take y)
          else none
        | _ => none
    | _ => none

/-- One position of the date search: the four alternatives in source
order. -/
def tryDateAt (l : List Char) : Option (List Char) :=
  (tryDateAlt isReDigit 4 l).orElse (fun _ =>
    (tryDateAlt isReDigit 2 l).orElse (fun _ =>
      (tryDateAlt isPersianDigit 4 l).orElse (fun _ =>
        tryDateAlt isPersianDigit 2 l)))

/-- `re.search` of the date pattern: leftmost match wins. -/
def reSearchDate : List Char → Option (List Char)
  | [] => none
  | c :: rest =>
    match tryDateAt (c :: rest) with
    | some m => some m
    | none => reSearchDate rest

/-- Backtracking loop of the title regex over the group-1 length `k`
(lazily increasing). -/
def titleFrom (s : List Char) (k : Nat) : Option (List Char × List Char) :=
  if h : s.length ≤ k then none
  else
    let afterA := s.drop k
    let w := (afterA.takeWhile isPySpace).length
    let r := afterA.drop w
    if "(مصوب".toList.isPrefixOf r then
      let r2 := r.drop 5
      let m := (r2.takeWhile isPySpace).length
      let g2start := k + w + 5
      if m = 0 ∨ s.length < g2start + m + 2 then
        if s.length < g2start + 3 ∨ m = 0 then titleFrom s (k + 1)
        else
          let m' := s.length - 2 - g2start
          some (s.take k, (s.drop (g2start + m')).take (s.length - 1 - (g2start + m')))
      else
        some (s.take k, (s.drop (g2start + m)).take (s.length - 1 - (g2start + m)))
    else titleFrom s (k + 1)
termination_by s.length - k
decreasing_by
  all_goals omega

/-- `re.search` of the title pattern: the dollar anchor forces the final
character to be the closing parenthesis, the caret anchors group 1 at
the string start. -/
def reSearchTitle (s : List Char) : Option (List Char × List Char) :=
  if s.getLast? = some ')' then titleFrom s 1 else none

/-- DocumentSplitter.extract_law_title_and_date fallback scan over the
first lines. -/
def fallbackTitleLine : List (List Char) → Option (List Char)
  | [] => none
  | l :: rest =>
    let s := pyStrip l
    if containsSub s "قانون".toList || containsSub s "آیین‌نامه".toList ||
        containsSub s "دستورالعمل".toList then some s
    else fallbackTitleLine rest

/-- DocumentSplitter.extract_law_title_and_date. -/
def extract_law_title_and_date (law_text : List Char) :
    Option (List Char) × Option (List Char) × Option (List Char) :=
  let cleaned := clean_text law_text
  let lines := (pySplitSep '\n' cleaned).take 5
  let first_content := pyStrip (joinSpace lines)
  match reSearchTitle first_content with
  | some (g1, g2) =>
    let title := pyStrip g1
    let date_info := pyStrip g2
    let authority :=
      if containsSub date_info "هیئت‌وزیران".toList ||
          containsSub date_info "هیئت وزیران".toList then "هیئت‌وزیران".toList
      else if containsSub date_info "شورای".toList then
        "شورای عالی انقلاب فرهنگی".toList
      else "مجلس شورای اسلامی".toList
    let approval_date :=
      match reSearchDate date_info with
      | some d => d
      | none => date_info
    (some title, some approval_date, some authority)
  | none =>
    match fallbackTitleLine lines with
    | some line => (some line, some "نامشخص".toList, some "نامشخص".toList)
    | none => (none, none, none)

/-! ### DocumentSplitter.process_individual_law and split_document -/

/-- One extracted law record.  The extraction timestamp of the source is
a wall-clock side effect and is not modelled. -/
structure LawMetadata where
  id : List Char
  title : List Char
  approval_date : List Char
  approval_authority : List Char
  raw_content : List Char
  word_count : Nat
  quality_score : ℚ
deriving Repr, DecidableEq

/-- The title-fallback scan over the first three lines of
`process_individual_law`. -/
def firstGoodLine : List (List Char) → Option (List Char)
  | [] => none
  | l :: rest =>
    let s := pyStrip l
    if s ≠ [] ∧ 10 < s.length then some s else firstGoodLine rest

/-- DocumentSplitter.process_individual_law: clean, reject when shorter
than the minimum length, extract title/date/authority with fallbacks,
build the record.  The per-record exception handler of the source cannot
fire in the modelled (total) operations. -/
def process_individual_law (law_text : List Char) (law_index : Nat) :
    Option LawMetadata :=
  let cleaned := clean_text law_text
  if cleaned.length < min_law_length then none
  else
    let tda := extract_law_title_and_date cleaned
    let t0 : List Char := (tda.1).getD []
    let title1 :=
      if t0 = [] then
        match firstGoodLine ((pySplitSep '\n' cleaned).take 3) with
        | some ln => ln.take 100 ++ "...".toList
        | none => []
      else t0
    let title := if title1 = [] then "سند حقوقی شماره ".toList ++ natStr (law_index + 1)
                 else title1
    let quality := calculate_quality_score cleaned title
    some { id := "law_".toList ++ pad3 (law_index + 1)
           title := title
           approval_date := (match tda.2.1 with
             | some d => if d = [] then "نامشخص".toList else d
             | none => "نامشخص".toList)
           approval_authority := (match tda.2.2 with
             | some a => if a = [] then "نامشخص".toList else a
             | none => "نامشخص".toList)
           raw_content := cleaned
           word_count := (pySplit cleaned).length
           quality_score := quality }

/-- Per-batch statistics of the splitter (extraction errors and wall
clock time are not modelled: no modelled operation raises). -/
structure SplitStats where
  total_laws_found : Nat
  valid_laws : Nat
  invalid_laws : Nat
deriving Repr, DecidableEq

/-- The per-boundary loop of `split_document`: slice, strip, process,
keep when the quality score reaches the 0.4 threshold. -/
def splitLoop (t : List Char) : List (Nat × Nat) → Nat → List LawMetadata × Nat × Nat
  | [], _ => ([], 0, 0)
  | (s, e) :: rest, i =>
    let law_text := pyStrip ((t.drop s).take (e - s))
    let r := splitLoop t rest (i + 1)
    if law_text ≠ [] then
      match process_individual_law law_text i with
      | some md =>
        if (2 : ℚ)/5 ≤ md.quality_score then (md :: r.1, r.2.1 + 1, r.2.2)
        else (r.1, r.2.1, r.2.2 + 1)
      | none => (r.1, r.2.1, r.2.2 + 1)
    else r

/-- DocumentSplitter.split_document, modelled from the joined paragraph
text onward (reading the source file is an external collaborator). -/
def split_document_text (t : List Char) : List LawMetadata × SplitStats :=
  let bs := identify_law_boundaries t
  let r := splitLoop t bs 0
  (r.1, { total_laws_found := bs.length, valid_laws := r.2.1, invalid_laws := r.2.2 })

/-! ### Claim C2: boundary spans -/

/-- Spans chained from a start anchor: each span starts where its
predecessor ended (the anchor for the first), and is nonempty.  This
captures contiguity and, together with strict growth, non-overlap. -/
def ChainedSpans : Nat → List (Nat × Nat) → Prop
  | _, [] => True
  | a, sp :: rest => sp.1 = a ∧ sp.1 < sp.2 ∧ ChainedSpans sp.2 rest

/-- The position where a chained span list ends. -/
def chainEnd (a : Nat) : List (Nat × Nat) → Nat
  | [] => a
  | sp :: rest => chainEnd sp.2 rest

theorem chainedSpans_append (l m : List (Nat × Nat)) (a : Nat)
    (hl : ChainedSpans a l) (hm : ChainedSpans (chainEnd a l) m) :
    ChainedSpans a (l ++ m) := by
  induction l generalizing a with
  | nil => simpa [chainEnd] using hm
  | cons sp rest ih =>
    obtain ⟨h1, h2, h3⟩ := hl
    exact ⟨h1, h2, ih sp.2 h3 hm⟩

theorem chainEnd_append (l m : List (Nat × Nat)) (a : Nat) :
    chainEnd a (l ++ m) = chainEnd (chainEnd a l) m := by
  induction l generalizing a with
  | nil => rfl
  | cons sp rest ih => simp only [List.cons_append, chainEnd]; exact ih sp.2

theorem chainedSpans_cover (l : List (Nat × Nat)) (a i : Nat)
    (hl : ChainedSpans a l) (hi : a ≤ i) (hie : i < chainEnd a l) :
    ∃ sp ∈ l, sp.1 ≤ i ∧ i < sp.2 := by
  induction l generalizing a with
  | nil => exact absurd hie (by simp [chainEnd]; omega)
  | cons sp rest ih =>
    obtain ⟨h1, h2, h3⟩ := hl
    by_cases hcase : i < sp.2
    · exact ⟨sp, by simp, by omega, hcase⟩
    · obtain ⟨sp', hmem, hle, hlt⟩ := ih sp.2 h3 (by omega) (by simpa [chainEnd] using hie)
      exact ⟨sp', by simp [hmem], hle, hlt⟩

theorem chain_lt_of_cons_le {a b : Nat} {xs : List Nat}
    (h : List.Chain' (· < ·) (a :: xs)) (hba : b ≤ a) :
    List.Chain' (· < ·) (b :: xs) := by
  match xs with
  | [] => simp
  | x :: rest =>
    rw [List.chain'_cons] at h ⊢
    exact ⟨by omega, h.2⟩

theorem asteriskMatches_spec (l : List Char) (i : Nat) :
    List.Chain' (· < ·) (i :: (asteriskMatches l i).map (fun m => m.2)) ∧
      ∀ m ∈ asteriskMatches l i, m.2 ≤ i + l.length := by
  induction l, i using asteriskMatches.induct with
  | case1 i => simp [asteriskMatches]
  | case2 rest i hrun ih =>
    rw [asteriskMatches, if_pos rfl, if_pos hrun]
    have h2 : (rest.takeWhile (fun d => d = '*')).length +
        (rest.dropWhile (fun d => d = '*')).length = rest.length := by
      rw [← List.length_append, List.takeWhile_append_dropWhile]
    have ht := takeWhileLen (fun d => d = '*') rest
    constructor
    · rw [List.map_cons, List.chain'_cons]
      exact ⟨by omega, ih.1⟩
    · intro m hm
      rcases List.mem_cons.mp hm with rfl | hm
      · simp only [List.length_cons]
        omega
      · have h1 := ih.2 m hm
        simp only [List.length_cons]
        omega
  | case3 rest i hrun ih =>
    rw [asteriskMatches, if_pos rfl, if_neg hrun]
    have h2 : (rest.takeWhile (fun d => d = '*')).length +
        (rest.dropWhile (fun d => d = '*')).length = rest.length := by
      rw [← List.length_append, List.takeWhile_append_dropWhile]
    constructor
    · exact chain_lt_of_cons_le ih.1 (by omega)
    · intro m hm
      have h1 := ih.2 m hm
      simp only [List.length_cons]
      omega
  | case4 c rest i hc ih =>
    rw [asteriskMatches, if_neg hc]
    constructor
    · exact chain_lt_of_cons_le ih.1 (by omega)
    · intro m hm
      have h1 := ih.2 m hm
      simp only [List.length_cons]
      omega

theorem boundariesGo_spec (seps : List Nat) (start : Nat)
    (h : List.Chain' (· < ·) (start :: seps)) :
    ChainedSpans start (boundariesGo start seps) ∧
      chainEnd start (boundariesGo start seps) = seps.getLastD start := by
  induction seps generalizing start with
  | nil => exact ⟨trivial, rfl⟩
  | cons sp rest ih =>
    rw [List.chain'_cons] at h
    have hlt : start < sp := h.1
    rw [boundariesGo, if_pos hlt, List.singleton_append]
    have ihr := ih sp h.2
    refine ⟨⟨rfl, hlt, ihr.1⟩, ?_⟩
    show chainEnd sp (boundariesGo sp rest) = (sp :: rest).getLastD start
    rw [ihr.2, List.getLastD_cons]

theorem identify_law_boundaries_partition (t : List Char) :
    ChainedSpans 0 (identify_law_boundaries t) ∧
      chainEnd 0 (identify_law_boundaries t) = t.length := by
  have hspec := asteriskMatches_spec t 0
  have hrw : identify_law_boundaries t =
      boundariesGo 0 ((asteriskMatches t 0).map (fun m => m.2)) ++
        (if ((asteriskMatches t 0).map (fun m => m.2)).getLastD 0 < t.length
         then [(((asteriskMatches t 0).map (fun m => m.2)).getLastD 0, t.length)]
         else []) := rfl
  rw [hrw]
  set seps := (asteriskMatches t 0).map (fun m => m.2) with hseps
  have hchain : List.Chain' (· < ·) (0 :: seps) := hspec.1
  have hbound : ∀ sp ∈ seps, sp ≤ t.length := by
    intro sp hmem
    rw [hseps] at hmem
    obtain ⟨m, hm, rfl⟩ := List.mem_map.mp hmem
    simpa using hspec.2 m hm
  have hbg := boundariesGo_spec seps 0 hchain
  by_cases hlt : seps.getLastD 0 < t.length
  · rw [if_pos hlt]
    refine ⟨chainedSpans_append _ _ _ hbg.1 ?_, ?_⟩
    · rw [hbg.2]
      exact ⟨rfl, hlt, trivial⟩
    · rw [chainEnd_append, hbg.2]
      rfl
  · rw [if_neg hlt, List.append_nil]
    refine ⟨hbg.1, ?_⟩
    rw [hbg.2]
    match hs : seps with
    | [] =>
      simp only [List.getLastD_nil] at hlt ⊢
      omega
    | s :: rest =>
      have hmem : (s :: rest).getLastD 0 ∈ s :: rest := by
        rw [List.getLastD_eq_getLast?, List.getLast?_eq_getLast (s :: rest) (by simp)]
        exact List.getLast_mem (by simp)
      have hb := hbound ((s :: rest).getLastD 0) hmem
      omega

/-- Chapter matches are ordered and in range: every match lies within the
scanned region, matches are nonempty, and each match ends no later than
the next one starts. -/
theorem chapterScan_spec (l : List Char) (i : Nat) (ls : Bool) :
    (∀ m ∈ chapterScan l i ls,
        i ≤ m.mstart ∧ m.mstart < m.mend ∧ m.mend ≤ i + l.length) ∧
      List.Chain' (fun a b => a.mend ≤ b.mstart) (chapterScan l i ls) := by
  induction l, i, ls using chapterScan.induct with
  | case1 i ls => simp [chapterScan]
  | case2 c rest i n g1 g2 htry ih =>
    rw [chapterScan, if_pos rfl, htry]
    have hb := tryChapterAt_bound _ _ _ _ htry
    have hdl : (List.drop n (c :: rest)).length = (c :: rest).length - n :=
      List.length_drop n (c :: rest)
    constructor
    · intro m hm
      rcases List.mem_cons.mp hm with rfl | hm
      · refine ⟨?_, ?_, ?_⟩ <;> dsimp only <;> omega
      · have h1 := ih.1 m hm
        have h2 := h1.1
        have h3 := h1.2.2
        refine ⟨?_, h1.2.1, ?_⟩ <;> dsimp only <;> omega
    · rw [List.chain'_cons']
      refine ⟨?_, ih.2⟩
      intro m hm
      have hmem := List.mem_of_mem_head? hm
      have h1 := ih.1 m hmem
      have h2 := h1.1
      dsimp only
      omega
  | case3 c rest i htry ih =>
    rw [chapterScan, if_pos rfl, htry]
    constructor
    · intro m hm
      have h1 := ih.1 m hm
      simp only [List.length_cons]
      exact ⟨by omega, h1.2.1, by omega⟩
    · exact ih.2
  | case4 c rest i atLineStart hls ih =>
    rw [chapterScan, if_neg hls]
    constructor
    · intro m hm
      have h1 := ih.1 m hm
      simp only [List.length_cons]
      exact ⟨by omega, h1.2.1, by omega⟩
    · exact ih.2

/-- Span structure of `extract_chapters`: spans are chained from the first
match position and end exactly at end of text. -/
theorem chapterSpansOf_spec (L : Nat) (rest0 : List ReMatch) (m0 : ReMatch)
    (hms : ∀ m ∈ m0 :: rest0, m.mstart < m.mend ∧ m.mend ≤ L)
    (hchain : List.Chain' (fun a b => a.mend ≤ b.mstart) (m0 :: rest0)) :
    ChainedSpans m0.mstart
        ((chapterSpansOf L (m0 :: rest0)).map (fun c => (c.startPos, c.endPos))) ∧
      chainEnd m0.mstart
        ((chapterSpansOf L (m0 :: rest0)).map (fun c => (c.startPos, c.endPos))) = L := by
  induction rest0 generalizing m0 with
  | nil =>
    have h1 := hms m0 (by simp)
    show ChainedSpans m0.mstart [(m0.mstart, L)] ∧
      chainEnd m0.mstart [(m0.mstart, L)] = L
    exact ⟨⟨rfl, by omega, trivial⟩, rfl⟩
  | cons m' tail' ih =>
    rw [List.chain'_cons] at hchain
    have h1 := hms m0 (by simp)
    have h2 := hms m' (by simp)
    have ihr := ih m' (fun m hm => hms m (List.mem_cons_of_mem _ hm)) hchain.2
    show ChainedSpans m0.mstart ((m0.mstart, m'.mstart) ::
        (chapterSpansOf L (m' :: tail')).map (fun c => (c.startPos, c.endPos))) ∧
      chainEnd m0.mstart ((m0.mstart, m'.mstart) ::
        (chapterSpansOf L (m' :: tail')).map (fun c => (c.startPos, c.endPos))) = L
    refine ⟨⟨rfl, by omega, ihr.1⟩, ihr.2⟩

/-- Claim C2, amended.  For the law-separator family the spans returned by
`identify_law_boundaries` are chained from position zero, end at end of
text, and cover every position of the input — the partition property as
claimed.  For the chapter-header family the spans of `extract_chapters`
are chained (contiguous, nonempty, non-overlapping) and the last one ends
at end of text, but the chain starts at the first header's match position
rather than position zero: text before the first chapter header is not
covered by any span (see the counterexample). -/
theorem C2_amended (t : List Char) :
    (ChainedSpans 0 (identify_law_boundaries t) ∧
      chainEnd 0 (identify_law_boundaries t) = t.length ∧
      ∀ i, i < t.length →
        ∃ sp ∈ identify_law_boundaries t, sp.1 ≤ i ∧ i < sp.2) ∧
    (∀ c0 rest0, extract_chapters t = c0 :: rest0 →
      ChainedSpans c0.startPos
          ((extract_chapters t).map (fun c => (c.startPos, c.endPos))) ∧
        chainEnd c0.startPos
          ((extract_chapters t).map (fun c => (c.startPos, c.endPos))) = t.length) := by
  have hpart := identify_law_boundaries_partition t
  constructor
  · refine ⟨hpart.1, hpart.2, ?_⟩
    intro i hi
    exact chainedSpans_cover _ _ _ hpart.1 (Nat.zero_le i) (by rw [hpart.2]; exact hi)
  · intro c0 rest0 heq
    have hscan := chapterScan_spec t 0 true
    unfold extract_chapters at heq ⊢
    match hms : chapterScan t 0 true with
    | [] => rw [hms] at heq; exact absurd heq (by simp [chapterSpansOf])
    | m :: tail =>
      rw [hms] at heq hscan
      have hspec := chapterSpansOf_spec t.length tail m
        (fun x hx => ⟨(hscan.1 x hx).2.1, by have := (hscan.1 x hx).2.2; omega⟩)
        hscan.2
      suffices hc0 : c0.startPos = m.mstart by rw [hc0]; exact hspec
      cases tail with
      | nil =>
        have heq' : ChapterSpan.mk (pyStrip m.g1) (pyStrip m.g2) m.mstart t.length
            :: [] = c0 :: rest0 := heq
        injection heq' with hh1 hh2
        rw [← hh1]
      | cons m2 tail2 =>
        have heq' : ChapterSpan.mk (pyStrip m.g1) (pyStrip m.g2) m.mstart m2.mstart
            :: chapterSpansOf t.length (m2 :: tail2) = c0 :: rest0 := heq
        injection heq' with hh1 hh2
        rw [← hh1]

/-- C2 counterexample: on a text with a preamble line before the first
chapter header, the chapter spans start at offset four, so their union
misses positions zero through three and does not cover the entire input,
refuting the claim for the chapter-header marker family. -/
theorem C2_counterexample :
    (extract_chapters ("اول\nفصل ۱ - ب".toList)).map
        (fun c => (c.startPos, c.endPos)) = [(4, 13)] ∧
      ("اول\nفصل ۱ - ب".toList).length = 13 ∧
      ¬ ∃ sp ∈ (extract_chapters ("اول\nفصل ۱ - ب".toList)).map
            (fun c => (c.startPos, c.endPos)), sp.1 ≤ 0 ∧ 0 < sp.2 := by
  have h : extract_chapters ("اول\nفصل ۱ - ب".toList) =
      [ChapterSpan.mk ("فصل ۱".toList) ("ب".toList) 4 13] := by
    simp +decide [extract_chapters, chapterScan, chapterSpansOf, tryChapterAt,
      isPySpace, isDash, pyStrip, String.toList]
  rw [h]
  refine ⟨rfl, rfl, ?_⟩
  rintro ⟨sp, hmem, h1, h2⟩
  simp at hmem
  rw [hmem] at h1
  omega

/-! ### Claim C6: the splitter quality gate -/

theorem process_individual_law_length (law_text : List Char) (i : Nat)
    (md : LawMetadata) (h : process_individual_law law_text i = some md) :
    min_law_length ≤ md.raw_content.length ∧
      md.raw_content = clean_text law_text := by
  unfold process_individual_law at h
  by_cases hlen : (clean_text law_text).length < min_law_length
  · rw [if_pos hlen] at h
    exact absurd h (by simp)
  · rw [if_neg hlen] at h
    simp only [Option.some.injEq] at h
    rw [← h]
    dsimp only
    exact ⟨by omega, rfl⟩

theorem splitLoop_quality (t : List Char) (bs : List (Nat × Nat)) (i : Nat)
    (md : LawMetadata) (h : md ∈ (splitLoop t bs i).1) :
    (2 : ℚ)/5 ≤ md.quality_score ∧ min_law_length ≤ md.raw_content.length := by
  induction bs generalizing i with
  | nil => exact absurd h (by simp [splitLoop])
  | cons b rest ih =>
    obtain ⟨s, e⟩ := b
    rw [splitLoop] at h
    by_cases hne : pyStrip ((t.drop s).take (e - s)) ≠ []
    · rw [if_pos hne] at h
      match hp : process_individual_law (pyStrip ((t.drop s).take (e - s))) i with
      | some md' =>
        rw [hp] at h
        dsimp only at h
        by_cases hq : (2 : ℚ)/5 ≤ md'.quality_score
        · rw [if_pos hq] at h
          rcases List.mem_cons.mp h with rfl | h
          · exact ⟨hq, (process_individual_law_length _ _ _ hp).1⟩
          · exact ih _ h
        · rw [if_neg hq] at h
          exact ih _ h
      | none =>
        rw [hp] at h
        dsimp only at h
        exact ih _ h
    · rw [if_neg hne] at h
      exact ih _ h

/-- Claim C6, as stated: every law record kept by the splitter has a
quality score of at least 0.4 and a cleaned content length of at least
the 50-character minimum; records scoring below the threshold (or too
short, which `process_individual_law` turns into `None`) are counted as
invalid and never emitted. -/
theorem C6_quality_gate (t : List Char) (md : LawMetadata)
    (h : md ∈ (split_document_text t).1) :
    (2 : ℚ)/5 ≤ md.quality_score ∧ min_law_length ≤ md.raw_content.length := by
  exact splitLoop_quality t (identify_law_boundaries t) 0 md h

theorem headD_mem {α} (l : List α) (d : α) (h : l ≠ []) : l.headD d ∈ l := by
  cases l with
  | nil => exact absurd rfl h
  | cons x xs => simp

set_option maxHeartbeats 2000000 in
/-- C6 witness: the quality-gate theorem applied to the single record the
splitter keeps on a concrete 55-character Persian input. -/
theorem C6_quality_gate_witness :
    ((split_document_text (List.replicate 55 'م')).1.headD
        (LawMetadata.mk [] [] [] [] [] 0 0)) ∈
        (split_document_text (List.replicate 55 'م')).1 ∧
      ((2 : ℚ)/5 ≤ ((split_document_text (List.replicate 55 'م')).1.headD
          (LawMetadata.mk [] [] [] [] [] 0 0)).quality_score ∧
        min_law_length ≤ ((split_document_text (List.replicate 55 'م')).1.headD
          (LawMetadata.mk [] [] [] [] [] 0 0)).raw_content.length) := by
  have hlen : (split_document_text (List.replicate 55 'م')).1.length = 1 := by
    simp +decide [split_document_text, identify_law_boundaries, asteriskMatches,
      boundariesGo, splitLoop, process_individual_law, clean_text,
      normalize_persian_text, nfkc, nfkcDecompose, nfkcDecomposeChar, nfkcCompose,
      nfkcComposeStarter, nfkcSkipMarks, nfkcPair, isArabicMark, charMapFold_eq_map,
      charMapChar, collapseWs, punctSpace, parenSpace, pyStrip, isPersianPunct,
      isParen, isPySpace, min_law_length, extract_law_title_and_date, reSearchTitle,
      titleFrom, fallbackTitleLine, firstGoodLine, pySplitSep, joinSpace, containsSub,
      calculate_quality_score, is_valid_persian_text, isWordChar, legalIndicators,
      searchMadehNum, searchMadehVahede, madehNumAt, madehVahedeAt, isPersianDigit,
      pySplit, natStr, pad3, reSearchDate]
    norm_num
  have hne : (split_document_text (List.replicate 55 'م')).1 ≠ [] := by
    intro hnil
    rw [hnil] at hlen
    simp at hlen
  have hmem := headD_mem (split_document_text (List.replicate 55 'م')).1
    (LawMetadata.mk [] [] [] [] [] 0 0) hne
  exact ⟨hmem, C6_quality_gate _ _ hmem⟩

/-! ### Claim C9: empty input and the empty-report success rate -/

/-- ProcessingStatus of core.models (values are the Persian strings of
the source). -/
inductive ProcessingStatus where
  | pending
  | processing
  | completed
  | error
deriving Repr, DecidableEq

/-- core.models.ProcessingReport.  The datetime fields are wall-clock
side effects and are not modelled; errors, warnings and statistics do not
affect the derived success rate. -/
structure ProcessingReport where
  operation_type : List Char
  status : ProcessingStatus
  total_items : Nat
  processed_items : Nat
  failed_items : Nat
  errors : List (List Char)
  warnings : List (List Char)
deriving Repr, DecidableEq

/-- ProcessingReport.success_rate: zero when there is nothing to process,
otherwise the processed percentage. -/
def success_rate (r : ProcessingReport) : ℚ :=
  if r.total_items = 0 then 0
  else (r.processed_items : ℚ) / (r.total_items : ℚ) * 100

/-- Claim C9: an empty document text yields zero law records (and a
zero found-laws count) without failing, and a report with zero total
items has success rate zero. -/
theorem C9_empty_split (t : List Char) (r : ProcessingReport)
    (ht : t = []) (hr : r.total_items = 0) :
    (split_document_text t).1 = [] ∧
      (split_document_text t).2.total_laws_found = 0 ∧
      success_rate r = 0 := by
  subst ht
  refine ⟨?_, ?_, ?_⟩
  · simp [split_document_text, identify_law_boundaries, asteriskMatches,
      boundariesGo, splitLoop]
  · simp [split_document_text, identify_law_boundaries, asteriskMatches,
      boundariesGo]
  · rw [success_rate, if_pos hr]

/-- C9 witness: the theorem applied at the empty text and a concrete
zero-item report. -/
theorem C9_empty_split_witness :
    (split_document_text []).1 = [] ∧
      (split_document_text []).2.total_laws_found = 0 ∧
      success_rate (ProcessingReport.mk [] ProcessingStatus.completed 0 5 0 [] []) = 0 :=
  C9_empty_split [] (ProcessingReport.mk [] ProcessingStatus.completed 0 5 0 [] []) rfl rfl

/-! ### PersianTextProcessor.extract_keywords and split_sentences -/

/-- The `legal_keywords` set of PersianTextProcessor. -/
def legal_keywords : List (List Char) :=
  ["قانون".toList, "آیین‌نامه".toList, "دستورالعمل".toList, "مصوبه".toList,
   "بخشنامه".toList, "ماده".toList, "تبصره".toList, "بند".toList, "فصل".toList,
   "قسمت".toList, "بخش".toList, "مجلس".toList, "شورای".toList, "وزیر".toList,
   "رئیس‌جمهور".toList, "هیئت‌وزیران".toList, "تصویب".toList, "ابلاغ".toList,
   "اجرا".toList, "لغو".toList, "اصلاح".toList, "الحاق".toList]

/-- Character class of the keyword tokenizer: the Arabic block plus the
zero-width (non-)joiners. -/
def isKeywordChar (c : Char) : Bool :=
  ((Char.ofNat 0x600) ≤ c && c ≤ (Char.ofNat 0x6FF)) ||
    c = (Char.ofNat 0x200C) || c = (Char.ofNat 0x200D)

/-- Maximal runs of keyword characters (`re.findall` of the word class). -/
def keywordRuns : List Char → List (List Char)
  | [] => []
  | c :: cs =>
    if isKeywordChar c then
      (c :: cs.takeWhile isKeywordChar) :: keywordRuns (cs.dropWhile isKeywordChar)
    else keywordRuns cs
termination_by t => t.length
decreasing_by
  · have h := dropWhileLen isKeywordChar cs
    simp only [List.length_cons]; omega
  · simp only [List.length_cons]; omega

/-- Score accumulation in a Python dict: entries keep first-insertion
order, repeated words add to the stored score. -/
def addScore (w : List Char) (s : Nat) :
    List (List Char × Nat) → List (List Char × Nat)
  | [] => [(w, s)]
  | (w', s') :: rest =>
    if w' = w then (w', s' + s) :: rest else (w', s') :: addScore w s rest

/-- Stable sort by descending score.  Python's `sorted(..., reverse=True)`
is a stable sort keeping equal-score entries in insertion order; it is
modelled by an (extensionally equal) stable insertion sort. -/
def insertDesc (x : List Char × Nat) :
    List (List Char × Nat) → List (List Char × Nat)
  | [] => [x]
  | y :: rest => if x.2 < y.2 then y :: insertDesc x rest else x :: y :: rest

def sortDesc : List (List Char × Nat) → List (List Char × Nat)
  | [] => []
  | x :: rest => insertDesc x (sortDesc rest)

/-- PersianTextProcessor.extract_keywords: clean, tokenize, score (two
points for legal-vocabulary members, one otherwise, summed over
occurrences), sort by descending score, take the best. -/
def extract_keywords (text : List Char) (min_length : Nat := 3)
    (max_keywords : Nat := 20) : List (List Char) :=
  if text = [] then []
  else
    let cleaned := clean_text text
    let words := keywordRuns cleaned
    let scores := words.foldl
      (fun acc w =>
        if min_length ≤ w.length then
          addScore w (if legal_keywords.contains w then 2 else 1) acc
        else acc) []
    ((sortDesc scores).take max_keywords).map (fun p => p.1)

/-- Sentence-final punctuation of `split_sentences`. -/
def isSentPunct (c : Char) : Bool :=
  c = '.' || c = '؟' || c = '!' || c = '؛'

/-- `re.split` on sentence punctuation followed by whitespace: scan left
to right, a match is one punctuation character plus the (greedy) maximal
following whitespace run; pieces between matches are returned. -/
def sentSplitGo : List Char → List Char → List (List Char)
  | [], acc => [acc.reverse]
  | c :: rest, acc =>
    if isSentPunct c then
      if (rest.take 1).any isPySpace then
        acc.reverse :: sentSplitGo (rest.dropWhile isPySpace) []
      else sentSplitGo rest (c :: acc)
    else sentSplitGo rest (c :: acc)
termination_by t _ => t.length
decreasing_by
  · have h := dropWhileLen isPySpace rest
    simp only [List.length_cons]
    omega
  · simp only [List.length_cons]; omega
  · simp only [List.length_cons]; omega

/-- PersianTextProcessor.split_sentences: strip, split on sentence
boundaries, keep stripped pieces longer than ten characters. -/
def split_sentences (text : List Char) : List (List Char) :=
  if text = [] then []
  else
    (sentSplitGo (pyStrip text) []).foldr
      (fun s acc =>
        if pyStrip s ≠ [] ∧ 10 < (pyStrip s).length then pyStrip s :: acc else acc) []

/-! ### IntelligentChunker: configuration and splitting -/

/-- The three chunking configuration numbers. -/
structure ChunkConfig where
  min_chunk_size : Nat
  max_chunk_size : Nat
  chunk_overlap : Nat
deriving Repr, DecidableEq

/-- IntelligentChunker.should_split_content. -/
def should_split_content (maxSize : Nat) (content : List Char) : Bool :=
  maxSize < content.length

/-- The greedy word-packing loop of `split_by_words`: words are added to
the running chunk while the running length (each word counted with one
joining space) stays within the maximum. -/
def splitByWordsGo (maxSize : Nat) :
    List (List Char) → List (List Char) → List (List Char) → Nat → List (List Char)
  | [], chunks, cur, _ =>
    chunks ++ (if cur.isEmpty then [] else [joinSpace cur])
  | w :: ws, chunks, cur, n =>
    if n + (w.length + 1) ≤ maxSize then
      splitByWordsGo maxSize ws chunks (cur ++ [w]) (n + (w.length + 1))
    else
      splitByWordsGo maxSize ws
        (chunks ++ (if cur.isEmpty then [] else [joinSpace cur])) [w] (w.length + 1)

/-- IntelligentChunker.split_by_words. -/
def split_by_words (maxSize : Nat) (content : List Char) : List (List Char) :=
  splitByWordsGo maxSize (pySplit content) [] [] 0

/-- The word-count slice length of `add_overlap_to_chunks`: the source
slices with `[-overlap//10:]`, and since unary minus binds tighter than
floor division this is minus the ceiling of overlap/10, so with a
positive overlap at least one word is always taken. -/
def overlapWordCount (overlap : Nat) : Nat :=
  (overlap + 9) / 10

/-- Python slice `l[-k:]` for positive `k`: the last `k` elements (all of
them when `k` exceeds the length). -/
def takeLastPy {α} (k : Nat) (l : List α) : List α :=
  l.drop (l.length - k)

/-- IntelligentChunker.add_overlap_to_chunks: every chunk after the first
is prefixed with the tail words of its (original) predecessor when the
two lengths fit in the maximum — the check ignores the joining space. -/
def add_overlap_to_chunks (maxSize overlap : Nat) (chunks : List (List Char)) :
    List (List Char) :=
  if chunks.length ≤ 1 ∨ overlap = 0 then chunks
  else
    match chunks with
    | [] => []
    | c0 :: rest =>
      c0 :: (rest.zip chunks).map (fun p =>
        let overlap_text := joinSpace (takeLastPy (overlapWordCount overlap) (pySplit p.2))
        if overlap_text.length + p.1.length ≤ maxSize then
          overlap_text ++ ' ' :: p.1
        else p.1)

/-- The greedy sentence-packing loop of `split_long_content`. -/
def sentencePackGo (maxSize : Nat) :
    List (List Char) → List (List Char) → List Char → List (List Char)
  | [], chunks, cur =>
    chunks ++ (if cur.isEmpty then [] else [pyStrip cur])
  | s :: ss, chunks, cur =>
    if (if cur.isEmpty then s else cur ++ ' ' :: s).length ≤ maxSize then
      sentencePackGo maxSize ss chunks (if cur.isEmpty then s else cur ++ ' ' :: s)
    else
      if s.length ≤ maxSize then
        sentencePackGo maxSize ss
          (chunks ++ (if cur.isEmpty then [] else [pyStrip cur])) s
      else
        sentencePackGo maxSize ss
          ((chunks ++ (if cur.isEmpty then [] else [pyStrip cur])) ++
            (split_by_words maxSize s).dropLast)
          ((split_by_words maxSize s).getLastD [])

/-- IntelligentChunker.split_long_content: sentence packing when more
than one sentence is found, otherwise word packing; overlap added at the
end.  (The `content_type` argument of the source is unused there.) -/
def split_long_content (maxSize overlap : Nat) (content : List Char) :
    List (List Char) :=
  if content.length ≤ maxSize then [content]
  else
    let sentences := split_sentences content
    let chunks :=
      if 1 < sentences.length then sentencePackGo maxSize sentences [] []
      else split_by_words maxSize content
    add_overlap_to_chunks maxSize overlap chunks

/-! ### The validated document model consumed by the chunker

These mirror the pydantic models of core/models.py.  Validators that
strip and reject empty content run at construction time in the source;
the content fields below hold the already-validated values, and the
claims that need non-emptiness take it as an explicit hypothesis.
`type` (a Python keyword-ish field) is `stype` here and holds the
subsection-kind string of the parser's dataclass. -/

structure PySubsection where
  number : List Char
  stype : List Char
  content : List Char
  keywords : List (List Char)
deriving Repr, DecidableEq

structure PyNote where
  number : List Char
  content : List Char
  keywords : List (List Char)
deriving Repr, DecidableEq

structure PyArticle where
  number : List Char
  title : List Char
  content : List Char
  subsections : List PySubsection
  notes : List PyNote
  keywords : List (List Char)
deriving Repr, DecidableEq

structure PyChapter where
  number : List Char
  title : List Char
  articles : List PyArticle
deriving Repr, DecidableEq

structure PyDocument where
  id : List Char
  title : List Char
  chapters : List PyChapter
  standalone_articles : List PyArticle
  footnotes : List (List Char)
deriving Repr, DecidableEq

/-- core.models.ChunkType. -/
inductive ChunkType where
  | article
  | note
  | subsection
  | chapter_title
  | footnote
  | combined
deriving Repr, DecidableEq

/-- IntelligentChunker.calculate_chunk_priority: fixed per-type base plus
a positional bonus fading to zero at position fifty. -/
def calculate_chunk_priority (content_type : ChunkType) (position : Nat) : Nat :=
  (match content_type with
   | ChunkType.article => 100
   | ChunkType.note => 80
   | ChunkType.subsection => 60
   | ChunkType.chapter_title => 90
   | ChunkType.footnote => 40
   | ChunkType.combined => 50) + (50 - min position 50)

/-- The chunk metadata map (the creation timestamp of the source is a
wall-clock side effect and is not modelled). -/
structure ChunkMeta where
  source_element : List Char
  element_type : ChunkType
  document_id : List Char
  position : Nat
  priority : Nat
deriving Repr, DecidableEq

def create_chunk_metadata (source_element : List Char) (element_type : ChunkType)
    (document_id : List Char) (position : Nat) : ChunkMeta :=
  { source_element := source_element, element_type := element_type,
    document_id := document_id, position := position,
    priority := calculate_chunk_priority element_type position }

/-- core.models.TextChunk after validation: content is stripped, word and
character counts recomputed from the validated content. -/
structure TextChunk where
  id : List Char
  document_id : List Char
  content : List Char
  chunk_type : ChunkType
  position : Nat
  word_count : Nat
  character_count : Nat
  keywords : List (List Char)
  legal_references : List (List Char)
  metadata : ChunkMeta
deriving Repr, DecidableEq

/-- TextChunk construction through the pydantic validators: the content
validator strips, the count validators recompute from the stripped
content.  The content-not-empty validator cannot fire on the contents
the chunker builds from validated articles (they always contain
non-whitespace), so no error path is modelled. -/
def mkTextChunk (id document_id : List Char) (content : List Char)
    (chunk_type : ChunkType) (position : Nat) (keywords : List (List Char))
    (legal_references : List (List Char)) (metadata : ChunkMeta) : TextChunk :=
  { id := id, document_id := document_id, content := pyStrip content,
    chunk_type := chunk_type, position := position,
    word_count := (pySplit (pyStrip content)).length,
    character_count := (pyStrip content).length,
    keywords := keywords, legal_references := legal_references,
    metadata := metadata }

/-- The rendered main-content text of an article in `chunk_article`: the
article number (and title when present) prefixed to the content. -/
def articleMainUnit (article : PyArticle) : List Char :=
  if article.title ≠ [] then
    article.number ++ ' ' :: '-' :: ' ' :: article.title ++
      '\n' :: '\n' :: article.content
  else article.number ++ '\n' :: '\n' :: article.content

/-- The common piece computation of `chunk_article`: a unit is split when
it is oversized, and kept whole otherwise. -/
def unitPieces (mx ov : Nat) (u : List Char) : List (List Char) :=
  if should_split_content mx u then split_long_content mx ov u else [u]

/-- The main-content pieces of `chunk_article`. -/
def articleMainContents (mx ov : Nat) (article : PyArticle) : List (List Char) :=
  if article.content ≠ [] then unitPieces mx ov (articleMainUnit article)
  else []

/-- One subsection's rendered unit text. -/
def subsectionUnit (article : PyArticle) (ss : PySubsection) : List Char :=
  article.number ++ ' ' :: '-' :: ' ' :: ss.stype ++ ' ' :: ss.number ++
    '\n' :: '\n' :: ss.content

/-- One note's rendered unit text. -/
def noteUnit (article : PyArticle) (note : PyNote) : List Char :=
  article.number ++ ' ' :: '-' :: ' ' :: note.number ++ '\n' :: '\n' :: note.content

/-- The subsection loop of `chunk_article` (enumerate index `j`, running
chunk counter `cnt`). -/
def chunkSubsGo (mx ov : Nat) (article : PyArticle) (document_id : List Char)
    (position : Nat) (base : List Char) :
    Nat → Nat → List PySubsection → List TextChunk
  | _, _, [] => []
  | j, cnt, ss :: rest =>
    if ss.content ≠ [] then
      let pieces := unitPieces mx ov (subsectionUnit article ss)
      let here := (pieces.enum.map (fun p =>
        mkTextChunk (base ++ '_' :: pad3 (cnt + p.1)) document_id p.2
          ChunkType.subsection position (ss.keywords.take 5)
          [article.number, 'ب' :: 'ن' :: 'د' :: ' ' :: ss.number]
          (create_chunk_metadata
            (article.number ++ "_subsection_".toList ++ natStr j)
            ChunkType.subsection document_id position)))
      here ++ chunkSubsGo mx ov article document_id position base (j + 1)
        (cnt + pieces.length) rest
    else chunkSubsGo mx ov article document_id position base (j + 1) cnt rest

/-- The note loop of `chunk_article`. -/
def chunkNotesGo (mx ov : Nat) (article : PyArticle) (document_id : List Char)
    (position : Nat) (base : List Char) :
    Nat → Nat → List PyNote → List TextChunk
  | _, _, [] => []
  | k, cnt, note :: rest =>
    if note.content ≠ [] then
      let pieces := unitPieces mx ov (noteUnit article note)
      let here := (pieces.enum.map (fun p =>
        mkTextChunk (base ++ '_' :: pad3 (cnt + p.1)) document_id p.2
          ChunkType.note position (note.keywords.take 5)
          [article.number, note.number]
          (create_chunk_metadata (article.number ++ "_note_".toList ++ natStr k)
            ChunkType.note document_id position)))
      here ++ chunkNotesGo mx ov article document_id position base (k + 1)
        (cnt + pieces.length) rest
    else chunkNotesGo mx ov article document_id position base (k + 1) cnt rest

/-- IntelligentChunker.chunk_article: main content chunks, then
subsection chunks, then note chunks, all at the article's position. -/
def chunk_article (mx ov : Nat) (article : PyArticle) (document_id : List Char)
    (position : Nat) (base_chunk_id : List Char) : List TextChunk :=
  let mains := articleMainContents mx ov article
  let mainChunks := mains.enum.map (fun p =>
    mkTextChunk (base_chunk_id ++ '_' :: pad3 p.1) document_id p.2
      ChunkType.article position (article.keywords.take 10) [article.number]
      (create_chunk_metadata article.number ChunkType.article document_id position))
  mainChunks ++
    chunkSubsGo mx ov article document_id position base_chunk_id 0 mains.length
      article.subsections ++
    chunkNotesGo mx ov article document_id position base_chunk_id 0
      (mains.length +
        (chunkSubsGo mx ov article document_id position base_chunk_id 0 mains.length
          article.subsections).length)
      article.notes

/-- The article loop of `chunk_chapter` (article `i` is chunked at
position `position + i + 1`; the id base carries the running counter
without zero padding). -/
def chunkChapterArticlesGo (mx ov : Nat) (document_id : List Char)
    (position : Nat) (base : List Char) :
    Nat → Nat → List PyArticle → List TextChunk
  | _, _, [] => []
  | i, cnt, article :: rest =>
    let here := chunk_article mx ov article document_id (position + i + 1)
      (base ++ '_' :: natStr cnt)
    here ++ chunkChapterArticlesGo mx ov document_id position base (i + 1)
      (cnt + here.length) rest

/-- IntelligentChunker.chunk_chapter: a chapter-title chunk when the
chapter has a title, then the chapters' articles. -/
def chunk_chapter (mx ov : Nat) (chapter : PyChapter) (document_id : List Char)
    (position : Nat) (base_chunk_id : List Char) : List TextChunk :=
  let titleChunks :=
    if chapter.title ≠ [] then
      [mkTextChunk (base_chunk_id ++ '_' :: pad3 0) document_id
        (chapter.number ++ ' ' :: '-' :: ' ' :: chapter.title)
        ChunkType.chapter_title position
        (extract_keywords (chapter.number ++ ' ' :: '-' :: ' ' :: chapter.title) 3 5)
        [chapter.number]
        (create_chunk_metadata chapter.number ChunkType.chapter_title document_id
          position)]
    else []
  titleChunks ++ chunkChapterArticlesGo mx ov document_id position base_chunk_id 0
    titleChunks.length chapter.articles

/-- The chapter loop of `chunk_document`. -/
def chunkChaptersGo (mx ov : Nat) (document : PyDocument) :
    Nat → Nat → List PyChapter → List TextChunk
  | _, _, [] => []
  | i, pc, chapter :: rest =>
    let here := chunk_chapter mx ov chapter document.id pc
      (document.id ++ '_' :: 'c' :: 'h' :: natStr i)
    here ++ chunkChaptersGo mx ov document (i + 1) (pc + here.length) rest

/-- The standalone-article loop of `chunk_document`. -/
def chunkStandaloneGo (mx ov : Nat) (document : PyDocument) :
    Nat → Nat → List PyArticle → List TextChunk
  | _, _, [] => []
  | i, pc, article :: rest =>
    let here := chunk_article mx ov article document.id pc
      (document.id ++ '_' :: 'a' :: 'r' :: 't' :: natStr i)
    here ++ chunkStandaloneGo mx ov document (i + 1) (pc + here.length) rest

/-- Total chunk count of the chapter and standalone loops, used to thread
the document position counter. -/
def footnotesContent (footnotes : List (List Char)) : List Char :=
  List.intercalate ['\n', '\n']
    (footnotes.enum.map (fun p =>
      "پاورقی ".toList ++ natStr (p.1 + 1) ++ ':' :: ' ' :: p.2))

/-- IntelligentChunker.chunk_document without the statistics bookkeeping:
chapters, then standalone articles, then one combined footnote chunk.
The minimum chunk size is read only by the statistics loop, which is why
it is not a parameter here. -/
def chunkDocumentCore (mx ov : Nat) (document : PyDocument) : List TextChunk :=
  let chapterChunks := chunkChaptersGo mx ov document 0 0 document.chapters
  let standaloneChunks := chunkStandaloneGo mx ov document 0 chapterChunks.length
    document.standalone_articles
  let pc := chapterChunks.length + standaloneChunks.length
  chapterChunks ++ standaloneChunks ++
    (if document.footnotes ≠ [] then
      (if footnotesContent document.footnotes ≠ [] then
        [mkTextChunk (document.id ++ "_footnotes".toList) document.id
          (footnotesContent document.footnotes) ChunkType.footnote pc
          (extract_keywords (footnotesContent document.footnotes) 3 5)
          ["پاورقی".toList]
          (create_chunk_metadata "footnotes".toList ChunkType.footnote document.id pc)]
      else [])
    else [])

/-- IntelligentChunker.chunk_document. -/
def chunk_document (cfg : ChunkConfig) (document : PyDocument) : List TextChunk :=
  chunkDocumentCore cfg.max_chunk_size cfg.chunk_overlap document

/-- The post-hoc quality bookkeeping of `chunk_document`: oversized and
undersized tallies over the produced chunks. -/
def chunkQualityTally (cfg : ChunkConfig) : List TextChunk → Nat × Nat
  | [] => (0, 0)
  | ch :: rest =>
    let r := chunkQualityTally cfg rest
    if cfg.max_chunk_size < ch.character_count then (r.1 + 1, r.2)
    else if ch.character_count < cfg.min_chunk_size then (r.1, r.2 + 1)
    else r

/-! ### Claim C10: split_by_words loses, duplicates and reorders nothing -/

theorem takeWhile_all_append {α} (p : α → Bool) (l r : List α)
    (h : ∀ c ∈ l, p c = true) : (l ++ r).takeWhile p = l ++ r.takeWhile p := by
  induction l with
  | nil => simp
  | cons c cs ih =>
    rw [List.cons_append, List.takeWhile_cons, if_pos (h c (by simp))]
    rw [ih (fun x hx => h x (by simp [hx]))]
    rfl

theorem dropWhile_all_append {α} (p : α → Bool) (l r : List α)
    (h : ∀ c ∈ l, p c = true) : (l ++ r).dropWhile p = r.dropWhile p := by
  induction l with
  | nil => simp
  | cons c cs ih =>
    rw [List.cons_append, List.dropWhile_cons, if_pos (h c (by simp))]
    exact ih (fun x hx => h x (by simp [hx]))

theorem pySplit_nil : pySplit [] = [] := by
  rw [pySplit]

theorem joinSpace_single (g : List Char) : joinSpace [g] = g := by
  simp [joinSpace, List.intercalate, List.intersperse]

theorem joinSpace_cons_cons (g g2 : List Char) (rest : List (List Char)) :
    joinSpace (g :: g2 :: rest) = g ++ ' ' :: joinSpace (g2 :: rest) := by
  simp [joinSpace, List.intercalate, List.intersperse]

/-- Splitting a whitespace-free nonempty word gives back the word. -/
theorem pySplit_single (w : List Char) (hne : w ≠ [])
    (hfree : ∀ c ∈ w, isPySpace c = false) : pySplit w = [w] := by
  obtain ⟨c, cs, rfl⟩ := List.exists_cons_of_ne_nil hne
  rw [pySplit]
  rw [if_neg (by simp [hfree c (by simp)])]
  have h1 : cs.takeWhile (fun d => !isPySpace d) = cs := by
    rw [List.takeWhile_eq_self_iff]
    intro x hx
    simp [hfree x (by simp [hx])]
  have h2 : cs.dropWhile (fun d => !isPySpace d) = [] := by
    rw [List.dropWhile_eq_nil_iff]
    intro x hx
    simp [hfree x (by simp [hx])]
  rw [h1, h2, pySplit_nil]

/-- Splitting a word, a space, and a remainder: the word comes first. -/
theorem pySplit_word_append (w t : List Char) (hne : w ≠ [])
    (hfree : ∀ c ∈ w, isPySpace c = false) :
    pySplit (w ++ ' ' :: t) = w :: pySplit t := by
  obtain ⟨c, cs, rfl⟩ := List.exists_cons_of_ne_nil hne
  rw [List.cons_append, pySplit]
  rw [if_neg (by simp [hfree c (by simp)])]
  have h1 : (cs ++ ' ' :: t).takeWhile (fun d => !isPySpace d) = cs := by
    rw [takeWhile_all_append _ _ _ (fun x hx => by simp [hfree x (by simp [hx])])]
    rw [List.takeWhile_cons, if_neg (by simp [isPySpace])]
    simp
  have h2 : (cs ++ ' ' :: t).dropWhile (fun d => !isPySpace d) = ' ' :: t := by
    rw [dropWhile_all_append _ _ _ (fun x hx => by simp [hfree x (by simp [hx])])]
    rw [List.dropWhile_cons, if_neg (by simp [isPySpace])]
  rw [h1, h2, pySplit, if_pos (by simp [isPySpace])]

/-- Splitting a space-joined list of whitespace-free nonempty words gives
back the list. -/
theorem pySplit_joinSpace (gs : List (List Char))
    (h : ∀ g ∈ gs, g ≠ [] ∧ ∀ c ∈ g, isPySpace c = false) :
    pySplit (joinSpace gs) = gs := by
  induction gs with
  | nil =>
    rw [show joinSpace [] = [] from rfl, pySplit_nil]
  | cons g rest ih =>
    match rest with
    | [] =>
      have hg := h g (by simp)
      rw [joinSpace_single]
      exact pySplit_single g hg.1 hg.2
    | g2 :: rest2 =>
      have hg := h g (by simp)
      rw [joinSpace_cons_cons]
      rw [pySplit_word_append g _ hg.1 hg.2]
      rw [ih (fun x hx => h x (by simp [hx]))]

/-- Every piece produced by `pySplit` is a nonempty whitespace-free run. -/
theorem pySplit_sound (t : List Char) :
    ∀ w ∈ pySplit t, w ≠ [] ∧ ∀ c ∈ w, isPySpace c = false := by
  induction t using pySplit.induct with
  | case1 => simp [pySplit]
  | case2 c cs hc ih =>
    rw [pySplit, if_pos hc]
    exact ih
  | case3 c cs hc ih =>
    rw [pySplit, if_neg hc]
    intro w hw
    rcases List.mem_cons.mp hw with rfl | hw
    · refine ⟨by simp, ?_⟩
      intro x hx
      rcases List.mem_cons.mp hx with rfl | hx
      · simpa using hc
      · have := List.mem_takeWhile_imp hx
        simpa using this
    · exact ih w hw

theorem joinSpace_ne_nil (gs : List (List Char)) (hne : gs ≠ [])
    (h : ∀ g ∈ gs, g ≠ []) : joinSpace gs ≠ [] := by
  match gs with
  | [g] =>
    rw [joinSpace_single]
    exact h g (by simp)
  | g :: g2 :: rest =>
    rw [joinSpace_cons_cons]
    have := h g (by simp)
    intro hcontra
    simp at hcontra

/-- Invariant of the word-packing loop: the words of its output are
exactly the already-flushed words, the running chunk and the remaining
input, and every produced chunk is nonempty. -/
theorem splitByWordsGo_spec (mx : Nat) (ws : List (List Char)) :
    ∀ (chunks cur : List (List Char)) (n : Nat),
    (∀ w ∈ ws, w ≠ [] ∧ ∀ c ∈ w, isPySpace c = false) →
    (∀ w ∈ cur, w ≠ [] ∧ ∀ c ∈ w, isPySpace c = false) →
    ((splitByWordsGo mx ws chunks cur n).flatMap pySplit =
        chunks.flatMap pySplit ++ cur ++ ws) ∧
      (∀ c ∈ splitByWordsGo mx ws chunks cur n, c ∈ chunks ∨ c ≠ []) := by
  induction ws with
  | nil =>
    intro chunks cur n hws hcur
    rw [splitByWordsGo]
    by_cases hc : cur.isEmpty
    · rw [if_pos hc]
      have : cur = [] := by simpa [List.isEmpty_iff] using hc
      subst this
      constructor
      · simp
      · intro c hc2
        exact Or.inl (by simpa using hc2)
    · rw [if_neg hc]
      have hcne : cur ≠ [] := by simpa [List.isEmpty_iff] using hc
      constructor
      · rw [List.flatMap_append]
        simp only [List.flatMap_cons, List.flatMap_nil, List.append_nil]
        rw [pySplit_joinSpace cur hcur]
      · intro c hc2
        rcases List.mem_append.mp hc2 with hmem | hmem
        · exact Or.inl hmem
        · right
          simp only [List.mem_singleton] at hmem
          subst hmem
          exact joinSpace_ne_nil cur hcne (fun g hg => (hcur g hg).1)
  | cons w ws ih =>
    intro chunks cur n hws hcur
    have hw := hws w (by simp)
    have hws' : ∀ x ∈ ws, x ≠ [] ∧ ∀ c ∈ x, isPySpace c = false :=
      fun x hx => hws x (by simp [hx])
    rw [splitByWordsGo]
    by_cases hfit : n + (w.length + 1) ≤ mx
    · rw [if_pos hfit]
      have hcur' : ∀ x ∈ cur ++ [w], x ≠ [] ∧ ∀ c ∈ x, isPySpace c = false := by
        intro x hx
        rcases List.mem_append.mp hx with hx | hx
        · exact hcur x hx
        · simp only [List.mem_singleton] at hx
          subst hx
          exact hw
      have ihr := ih chunks (cur ++ [w]) (n + (w.length + 1)) hws' hcur'
      refine ⟨?_, ihr.2⟩
      rw [ihr.1]
      simp
    · rw [if_neg hfit]
      have hcurw : ∀ x ∈ [w], x ≠ [] ∧ ∀ c ∈ x, isPySpace c = false := by
        intro x hx
        simp only [List.mem_singleton] at hx
        subst hx
        exact hw
      have ihr := ih (chunks ++ (if cur.isEmpty then [] else [joinSpace cur])) [w]
        (w.length + 1) hws' hcurw
      constructor
      · rw [ihr.1, List.flatMap_append]
        by_cases hc : cur.isEmpty
        · have : cur = [] := by simpa [List.isEmpty_iff] using hc
          subst this
          simp [hc]
        · have hcne : cur ≠ [] := by simpa [List.isEmpty_iff] using hc
          rw [if_neg hc]
          simp only [List.flatMap_cons, List.flatMap_nil, List.append_nil]
          rw [pySplit_joinSpace cur hcur]
          simp
      · intro c hc2
        rcases ihr.2 c hc2 with hmem | hne2
        · rcases List.mem_append.mp hmem with hmem | hmem
          · exact Or.inl hmem
          · right
            by_cases hc : cur.isEmpty
            · rw [if_pos hc] at hmem
              simp at hmem
            · rw [if_neg hc] at hmem
              simp only [List.mem_singleton] at hmem
              subst hmem
              exact joinSpace_ne_nil cur (by simpa [List.isEmpty_iff] using hc)
                (fun g hg => (hcur g hg).1)
        · exact Or.inr hne2

/-- Claim C10: the chunks of `split_by_words` are nonempty, and their
whitespace-delimited words concatenate to exactly the words of the
input, in order. -/
theorem C10_word_roundtrip (maxSize : Nat) (content : List Char) :
    (∀ c ∈ split_by_words maxSize content, c ≠ []) ∧
      (split_by_words maxSize content).flatMap pySplit = pySplit content := by
  have h := splitByWordsGo_spec maxSize (pySplit content) [] [] 0
    (pySplit_sound content) (by simp)
  unfold split_by_words
  constructor
  · intro c hc
    rcases h.2 c hc with hmem | hne
    · simp at hmem
    · exact hne
  · rw [h.1]
    simp

/-! ### Claim C4: overlap prefixes in add_overlap_to_chunks -/

theorem getElemq_zip {α β} (l : List α) (m : List β) :
    ∀ (i : Nat) (a : α) (b : β),
    l[i]? = some a → m[i]? = some b → (l.zip m)[i]? = some (a, b) := by
  induction l generalizing m with
  | nil => intro i a b ha; simp at ha
  | cons x xs ih =>
    intro i a b ha hb
    match m with
    | [] => simp at hb
    | y :: ys =>
      match i with
      | 0 =>
        simp only [List.getElem?_cons_zero, Option.some.injEq] at ha hb
        simp [List.zip_cons_cons, ha, hb]
      | i + 1 =>
        simp only [List.getElem?_cons_succ] at ha hb
        simpa [List.zip_cons_cons] using ih ys i a b ha hb

/-- Claim C4 (counterexample): with max size 7 and overlap 20 on chunks
"aa bb" and "cc", the overlap text "aa bb" (5 chars) plus the chunk
(2 chars) passes the 7-char check, yet the emitted chunk "aa bb cc" has
8 characters — the combined length including the joining space does NOT
fit within the maximum, contradicting the claimed "if and only if the
resulting combined length still fits" condition. -/
theorem C4_counterexample :
    add_overlap_to_chunks 7 20 [['a','a',' ','b','b'], ['c','c']] =
      [['a','a',' ','b','b'], ['a','a',' ','b','b',' ','c','c']] ∧
    ¬ ((['a','a',' ','b','b',' ','c','c'] : List Char).length ≤ 7) := by
  constructor
  · simp +decide [add_overlap_to_chunks, pySplit, takeLastPy, overlapWordCount,
      joinSpace, List.intercalate, List.intersperse, isPySpace]
  · decide

/-- Claim C4 (amended): when the overlap pass is active (more than one
chunk and nonzero overlap), the output has the same number of chunks, the
first chunk is unchanged, and every later chunk is prefixed with the tail
⌈overlap/10⌉ words of its original predecessor exactly when the overlap
text length plus the chunk length — NOT counting the joining space —
fits within max_chunk_size; the emitted combined chunk can therefore
exceed the maximum by one character. -/
theorem C4_amended (mx ov : Nat) (chunks : List (List Char))
    (hlen : ¬ (chunks.length ≤ 1 ∨ ov = 0)) :
    (add_overlap_to_chunks mx ov chunks).length = chunks.length ∧
    (add_overlap_to_chunks mx ov chunks).head? = chunks.head? ∧
    ∀ (i : Nat) (ci cp : List Char), chunks[i+1]? = some ci → chunks[i]? = some cp →
      (add_overlap_to_chunks mx ov chunks)[i+1]? =
        some (if (joinSpace (takeLastPy (overlapWordCount ov) (pySplit cp))).length +
                ci.length ≤ mx
          then joinSpace (takeLastPy (overlapWordCount ov) (pySplit cp)) ++ ' ' :: ci
          else ci) := by
  match chunks with
  | [] => exact absurd (Or.inl (by simp)) hlen
  | c0 :: rest =>
    rw [add_overlap_to_chunks, if_neg hlen]
    refine ⟨?_, rfl, ?_⟩
    · simp only [List.length_cons, List.length_map, List.length_zip]
      have : rest.length ≤ (c0 :: rest).length := by simp
      omega
    · intro i ci cp hci hcp
      simp only [List.getElem?_cons_succ] at hci
      have hz := getElemq_zip rest (c0 :: rest) i ci cp hci hcp
      simp only [List.getElem?_cons_succ, List.getElem?_map, hz, Option.map_some]
      rfl

theorem C4_amended_witness :
    (add_overlap_to_chunks 7 20 [['a','a',' ','b','b'], ['c','c']])[0+1]? =
      some (if (joinSpace (takeLastPy (overlapWordCount 20)
                (pySplit ['a','a',' ','b','b']))).length +
              (['c','c'] : List Char).length ≤ 7
        then joinSpace (takeLastPy (overlapWordCount 20)
              (pySplit ['a','a',' ','b','b'])) ++ ' ' :: ['c','c']
        else ['c','c']) :=
  (C4_amended 7 20 [['a','a',' ','b','b'], ['c','c']] (by decide)).2.2 0
    ['c','c'] ['a','a',' ','b','b'] (by decide) (by decide)

/-! ### Shared helpers for the chunk-level claims -/

theorem headq_mem {α} (l : List α) (x : α) (h : l.head? = some x) : x ∈ l := by
  match l with
  | [] => simp at h
  | a :: as =>
    simp only [List.head?_cons, Option.some.injEq] at h
    exact h ▸ List.mem_cons_self a as

theorem getLastq_mem {α} (l : List α) (x : α) (h : l.getLast? = some x) : x ∈ l := by
  induction l with
  | nil => simp at h
  | cons a as ih =>
    match as with
    | [] =>
      simp only [List.getLast?_singleton, Option.some.injEq] at h
      exact h ▸ List.mem_cons_self a []
    | b :: bs =>
      rw [List.getLast?_cons_cons] at h
      exact List.mem_cons_of_mem a (ih h)

theorem pyStrip_length_le (t : List Char) : (pyStrip t).length ≤ t.length := by
  unfold pyStrip
  rw [List.length_reverse]
  calc ((t.dropWhile isPySpace).reverse.dropWhile isPySpace).length
      ≤ (t.dropWhile isPySpace).reverse.length := dropWhileLen _ _
    _ = (t.dropWhile isPySpace).length := List.length_reverse _
    _ ≤ t.length := dropWhileLen _ _

theorem exists_nonspace_of_pyStrip_ne (t : List Char) (h : pyStrip t ≠ []) :
    ∃ c ∈ t, isPySpace c = false := by
  match hps : pyStrip t with
  | [] => exact absurd hps h
  | c :: cs =>
    refine ⟨c, ?_, ?_⟩
    · exact mem_of_mem_pyStrip t c (hps ▸ List.mem_cons_self c cs)
    · exact pyStrip_headq t c (by rw [hps]; rfl)

theorem pySplit_ne_nil_of_mem (t : List Char) (c : Char) (hc : c ∈ t)
    (hns : isPySpace c = false) : pySplit t ≠ [] := by
  induction t using pySplit.induct with
  | case1 => simp at hc
  | case2 d ds hd ih =>
    rw [pySplit, if_pos hd]
    rcases List.mem_cons.mp hc with rfl | hc2
    · rw [hns] at hd; simp at hd
    · exact ih hc2
  | case3 d ds hd ih =>
    rw [pySplit, if_neg hd]
    simp

theorem getLastD_cases {α} (l : List α) (d : α) :
    (l.getLastD d = d ∧ l = []) ∨ l.getLastD d ∈ l := by
  induction l generalizing d with
  | nil => exact Or.inl ⟨rfl, rfl⟩
  | cons a as ih =>
    right
    rw [List.getLastD_cons]
    rcases ih a with ⟨heq, hnil⟩ | hmem
    · subst hnil
      simp [heq]
    · exact List.mem_cons_of_mem a hmem

theorem enumFrom_snd_mem {α} (l : List α) :
    ∀ (n : Nat) (p : Nat × α), p ∈ l.enumFrom n → p.2 ∈ l := by
  induction l with
  | nil => intro n p hp; simp at hp
  | cons a as ih =>
    intro n p hp
    rw [List.enumFrom_cons] at hp
    rcases List.mem_cons.mp hp with rfl | hp2
    · exact List.mem_cons_self a as
    · exact List.mem_cons_of_mem a (ih (n + 1) p hp2)

theorem enum_snd_mem {α} (l : List α) (p : Nat × α) (hp : p ∈ l.enum) : p.2 ∈ l :=
  enumFrom_snd_mem l 0 p hp

theorem chainle_of_all_eq (l : List Nat) (v : Nat) (h : ∀ x ∈ l, x = v) :
    List.Chain' (fun x y : Nat => x ≤ y) l := by
  induction l with
  | nil => exact List.chain'_nil
  | cons a as ih =>
    rw [List.chain'_cons']
    constructor
    · intro b hb
      rw [h a (by simp), h b (List.mem_cons_of_mem a (headq_mem as b hb))]
    · exact ih (fun x hx => h x (by simp [hx]))

/-- The word-length condition under which the splitting pipeline keeps
chunks within the maximum: every whitespace word of the unit, and every
word of each of its extracted sentences, fits in the maximum. -/
def WordBound (mx : Nat) (u : List Char) : Prop :=
  (∀ w ∈ pySplit u, w.length ≤ mx) ∧
  ∀ s ∈ split_sentences u, ∀ w ∈ pySplit s, w.length ≤ mx

/-- `WordBound` for every rendered unit of one article. -/
def ArticleWB (mx : Nat) (a : PyArticle) : Prop :=
  (a.content ≠ [] → WordBound mx (articleMainUnit a)) ∧
  (∀ ss ∈ a.subsections, ss.content ≠ [] → WordBound mx (subsectionUnit a ss)) ∧
  (∀ nt ∈ a.notes, nt.content ≠ [] → WordBound mx (noteUnit a nt))

theorem joinSpace_append_singleton (cur : List (List Char)) (w : List Char)
    (h : cur ≠ []) : joinSpace (cur ++ [w]) = joinSpace cur ++ ' ' :: w := by
  induction cur with
  | nil => exact absurd rfl h
  | cons x xs ih =>
    match xs with
    | [] =>
      rw [show (([x] : List (List Char)) ++ [w]) = [x, w] from rfl,
        joinSpace_cons_cons, joinSpace_single, joinSpace_single]
    | y :: ys =>
      have hstep : ((y :: ys) : List (List Char)) ++ [w] = y :: (ys ++ [w]) := rfl
      rw [show ((x :: y :: ys) ++ [w]) = x :: ((y :: ys) ++ [w]) from rfl, hstep,
        joinSpace_cons_cons, ← hstep, ih (by simp), joinSpace_cons_cons]
      simp

theorem splitByWordsGo_ne_nil (mx : Nat) (ws : List (List Char)) :
    ∀ (chunks cur : List (List Char)) (n : Nat),
    (chunks ≠ [] ∨ cur ≠ [] ∨ ws ≠ []) →
    splitByWordsGo mx ws chunks cur n ≠ [] := by
  induction ws with
  | nil =>
    intro chunks cur n h
    rw [splitByWordsGo]
    rcases h with h | h | h
    · intro hcontra
      exact h (List.append_eq_nil.mp hcontra).1
    · by_cases hc : cur.isEmpty
      · exact absurd (by simpa [List.isEmpty_iff] using hc) h
      · rw [if_neg hc]
        simp
    · exact absurd rfl h
  | cons w ws ih =>
    intro chunks cur n h
    rw [splitByWordsGo]
    by_cases hfit : n + (w.length + 1) ≤ mx
    · rw [if_pos hfit]
      exact ih chunks (cur ++ [w]) _ (Or.inr (Or.inl (by simp)))
    · rw [if_neg hfit]
      exact ih _ [w] _ (Or.inr (Or.inl (by simp)))

theorem split_by_words_ne_nil (mx : Nat) (content : List Char)
    (h : pySplit content ≠ []) : split_by_words mx content ≠ [] :=
  splitByWordsGo_ne_nil mx (pySplit content) [] [] 0 (Or.inr (Or.inr h))

theorem split_by_words_mem_ne (mx : Nat) (content : List Char) (c : List Char)
    (hc : c ∈ split_by_words mx content) : c ≠ [] := by
  rcases (splitByWordsGo_spec mx (pySplit content) [] [] 0
      (pySplit_sound content) (by simp)).2 c hc with h | h
  · simp at h
  · exact h

theorem add_overlap_length (mx ov : Nat) (chunks : List (List Char)) :
    (add_overlap_to_chunks mx ov chunks).length = chunks.length := by
  unfold add_overlap_to_chunks
  split
  · rfl
  · rcases chunks with _ | ⟨c0, rest⟩
    · rfl
    · simp only [List.length_cons, List.length_map, List.length_zip]
      omega

theorem add_overlap_bound (mx ov : Nat) (chunks : List (List Char))
    (h : ∀ c ∈ chunks, c.length ≤ mx) :
    ∀ c ∈ add_overlap_to_chunks mx ov chunks, c.length ≤ mx + 1 := by
  unfold add_overlap_to_chunks
  split
  · exact fun c hc => Nat.le_succ_of_le (h c hc)
  · rcases chunks with _ | ⟨c0, rest⟩
    · intro c hc; simp at hc
    · intro c hc
      rcases List.mem_cons.mp hc with rfl | hc2
      · exact Nat.le_succ_of_le (h c (by simp))
      · obtain ⟨p, hp, rfl⟩ := List.mem_map.mp hc2
        obtain ⟨hp1, hp2⟩ := List.of_mem_zip hp
        dsimp only
        by_cases hfit :
            (joinSpace (takeLastPy (overlapWordCount ov) (pySplit p.2))).length +
              p.1.length ≤ mx
        · rw [if_pos hfit]
          simp only [List.length_append, List.length_cons]
          omega
        · rw [if_neg hfit]
          exact Nat.le_succ_of_le (h p.1 (List.mem_cons_of_mem c0 hp1))

theorem splitByWordsGo_bound (mx : Nat) (ws : List (List Char)) :
    ∀ (chunks cur : List (List Char)) (n : Nat),
    (∀ w ∈ ws, w.length ≤ mx) →
    (cur = [] → n = 0) →
    (cur ≠ [] → (joinSpace cur).length + 1 = n ∧ n ≤ mx + 1) →
    ∀ c ∈ splitByWordsGo mx ws chunks cur n, c ∈ chunks ∨ c.length ≤ mx := by
  induction ws with
  | nil =>
    intro chunks cur n hws hn0 hinv c hc
    rw [splitByWordsGo] at hc
    by_cases hcur : cur.isEmpty
    · rw [if_pos hcur] at hc
      simp only [List.append_nil] at hc
      exact Or.inl hc
    · rw [if_neg hcur] at hc
      rcases List.mem_append.mp hc with h1 | h1
      · exact Or.inl h1
      · right
        simp only [List.mem_singleton] at h1
        subst h1
        have := hinv (by simpa [List.isEmpty_iff] using hcur)
        omega
  | cons w ws ih =>
    intro chunks cur n hws hn0 hinv c hc
    rw [splitByWordsGo] at hc
    have hwmx := hws w (by simp)
    have hws' : ∀ x ∈ ws, x.length ≤ mx := fun x hx => hws x (by simp [hx])
    by_cases hfit : n + (w.length + 1) ≤ mx
    · rw [if_pos hfit] at hc
      refine ih chunks (cur ++ [w]) (n + (w.length + 1)) hws' ?_ ?_ c hc
      · intro hcontra; simp at hcontra
      · intro _
        refine ⟨?_, by omega⟩
        by_cases hcur : cur = []
        · subst hcur
          rw [hn0 rfl, show (([] : List (List Char)) ++ [w]) = [w] from rfl,
            joinSpace_single]
          omega
        · rw [joinSpace_append_singleton cur w hcur]
          have := (hinv hcur).1
          simp only [List.length_append, List.length_cons]
          omega
    · rw [if_neg hfit] at hc
      have hres := ih (chunks ++ (if cur.isEmpty then [] else [joinSpace cur])) [w]
        (w.length + 1) hws' (by intro hcontra; simp at hcontra)
        (fun _ => ⟨by rw [joinSpace_single], by omega⟩) c hc
      rcases hres with h1 | h1
      · rcases List.mem_append.mp h1 with h2 | h2
        · exact Or.inl h2
        · right
          by_cases hcur : cur.isEmpty
          · rw [if_pos hcur] at h2; simp at h2
          · rw [if_neg hcur] at h2
            simp only [List.mem_singleton] at h2
            subst h2
            have := hinv (by simpa [List.isEmpty_iff] using hcur)
            omega
      · exact Or.inr h1

theorem split_by_words_bound (mx : Nat) (content : List Char)
    (h : ∀ w ∈ pySplit content, w.length ≤ mx) :
    ∀ c ∈ split_by_words mx content, c.length ≤ mx := by
  intro c hc
  rcases splitByWordsGo_bound mx (pySplit content) [] [] 0 h (fun _ => rfl)
    (fun hcontra => absurd rfl hcontra) c hc with h1 | h1
  · simp at h1
  · exact h1

theorem pyStrip_exists_nonspace_self (t : List Char) (h : pyStrip t ≠ []) :
    ∃ c ∈ pyStrip t, isPySpace c = false := by
  match hps : pyStrip t with
  | [] => exact absurd hps h
  | c :: cs =>
    exact ⟨c, List.mem_cons_self c cs, pyStrip_headq t c (by rw [hps]; rfl)⟩

theorem split_sentences_mem (t s : List Char) (hs : s ∈ split_sentences t) :
    ∃ c ∈ s, isPySpace c = false := by
  unfold split_sentences at hs
  split at hs
  · simp at hs
  · have key : ∀ (l : List (List Char)),
        s ∈ l.foldr (fun s acc =>
          if pyStrip s ≠ [] ∧ 10 < (pyStrip s).length then pyStrip s :: acc
          else acc) [] →
        ∃ c ∈ s, isPySpace c = false := by
      intro l
      induction l with
      | nil => intro h2; simp at h2
      | cons x xs ih =>
        intro h2
        rw [List.foldr_cons] at h2
        by_cases hx : pyStrip x ≠ [] ∧ 10 < (pyStrip x).length
        · rw [if_pos hx] at h2
          rcases List.mem_cons.mp h2 with rfl | h3
          · exact pyStrip_exists_nonspace_self x hx.1
          · exact ih h3
        · rw [if_neg hx] at h2
          exact ih h2
    exact key _ hs

theorem sentencePackGo_ne_nil (mx : Nat) (ss : List (List Char)) :
    ∀ (chunks : List (List Char)) (cur : List Char),
    (∀ s ∈ ss, ∃ c ∈ s, isPySpace c = false) →
    (chunks ≠ [] ∨ cur ≠ [] ∨ ss ≠ []) →
    sentencePackGo mx ss chunks cur ≠ [] := by
  induction ss with
  | nil =>
    intro chunks cur hss h
    rw [sentencePackGo]
    rcases h with h | h | h
    · intro hcontra
      exact h (List.append_eq_nil.mp hcontra).1
    · by_cases hc : cur.isEmpty
      · exact absurd (by simpa [List.isEmpty_iff] using hc) h
      · rw [if_neg hc]
        simp
    · exact absurd rfl h
  | cons s ss ih =>
    intro chunks cur hss h
    rw [sentencePackGo]
    have hs0 := hss s (by simp)
    have hss' : ∀ x ∈ ss, ∃ c ∈ x, isPySpace c = false :=
      fun x hx => hss x (List.mem_cons_of_mem s hx)
    by_cases h1 : (if cur.isEmpty then s else cur ++ ' ' :: s).length ≤ mx
    · rw [if_pos h1]
      apply ih _ _ hss'
      right; left
      by_cases hc : cur.isEmpty
      · simp only [if_pos hc]
        obtain ⟨c, hc2, _⟩ := hs0
        exact List.ne_nil_of_mem hc2
      · simp only [if_neg hc]
        intro hcontra
        simp at hcontra
    · rw [if_neg h1]
      by_cases h2 : s.length ≤ mx
      · rw [if_pos h2]
        apply ih _ _ hss'
        right; left
        obtain ⟨c, hc2, _⟩ := hs0
        exact List.ne_nil_of_mem hc2
      · rw [if_neg h2]
        apply ih _ _ hss'
        right; left
        obtain ⟨c, hc2, hcns⟩ := hs0
        have hsbw : split_by_words mx s ≠ [] :=
          split_by_words_ne_nil mx s (pySplit_ne_nil_of_mem s c hc2 hcns)
        rcases getLastD_cases (split_by_words mx s) [] with ⟨_, hnil⟩ | hmem
        · exact absurd hnil hsbw
        · exact split_by_words_mem_ne mx s _ hmem

theorem sentencePackGo_bound (mx : Nat) (ss : List (List Char)) :
    ∀ (chunks : List (List Char)) (cur : List Char),
    (∀ s ∈ ss, ∀ w ∈ pySplit s, w.length ≤ mx) →
    cur.length ≤ mx →
    ∀ c ∈ sentencePackGo mx ss chunks cur, c ∈ chunks ∨ c.length ≤ mx := by
  induction ss with
  | nil =>
    intro chunks cur hss hcur c hc
    rw [sentencePackGo] at hc
    rcases List.mem_append.mp hc with h1 | h1
    · exact Or.inl h1
    · right
      by_cases hce : cur.isEmpty
      · rw [if_pos hce] at h1; simp at h1
      · rw [if_neg hce] at h1
        simp only [List.mem_singleton] at h1
        subst h1
        exact le_trans (pyStrip_length_le cur) hcur
  | cons s ss ih =>
    intro chunks cur hss hcur c hc
    rw [sentencePackGo] at hc
    have hs0 := hss s (by simp)
    have hss' : ∀ x ∈ ss, ∀ w ∈ pySplit x, w.length ≤ mx :=
      fun x hx => hss x (List.mem_cons_of_mem s hx)
    by_cases h1 : (if cur.isEmpty then s else cur ++ ' ' :: s).length ≤ mx
    · rw [if_pos h1] at hc
      exact ih chunks _ hss' h1 c hc
    · rw [if_neg h1] at hc
      by_cases h2 : s.length ≤ mx
      · rw [if_pos h2] at hc
        rcases ih _ s hss' h2 c hc with hmem | hlen
        · rcases List.mem_append.mp hmem with hm2 | hm2
          · exact Or.inl hm2
          · right
            by_cases hce : cur.isEmpty
            · rw [if_pos hce] at hm2; simp at hm2
            · rw [if_neg hce] at hm2
              simp only [List.mem_singleton] at hm2
              subst hm2
              exact le_trans (pyStrip_length_le cur) hcur
        · exact Or.inr hlen
      · rw [if_neg h2] at hc
        have hsw := split_by_words_bound mx s hs0
        have hcur2 : ((split_by_words mx s).getLastD []).length ≤ mx := by
          rcases getLastD_cases (split_by_words mx s) [] with ⟨heq, _⟩ | hmem
          · rw [heq]; exact Nat.zero_le mx
          · exact hsw _ hmem
        rcases ih _ _ hss' hcur2 c hc with hmem | hlen
        · rcases List.mem_append.mp hmem with hm2 | hm2
          · rcases List.mem_append.mp hm2 with hm3 | hm3
            · exact Or.inl hm3
            · right
              by_cases hce : cur.isEmpty
              · rw [if_pos hce] at hm3; simp at hm3
              · rw [if_neg hce] at hm3
                simp only [List.mem_singleton] at hm3
                subst hm3
                exact le_trans (pyStrip_length_le cur) hcur
          · exact Or.inr (hsw c (List.dropLast_subset _ hm2))
        · exact Or.inr hlen

theorem split_long_content_bound (mx ov : Nat) (content : List Char)
    (hw : ∀ w ∈ pySplit content, w.length ≤ mx)
    (hs : ∀ s ∈ split_sentences content, ∀ w ∈ pySplit s, w.length ≤ mx) :
    ∀ c ∈ split_long_content mx ov content, c.length ≤ mx + 1 := by
  intro c hc
  unfold split_long_content at hc
  split at hc
  case isTrue h =>
    simp only [List.mem_singleton] at hc
    subst hc
    omega
  case isFalse h =>
    dsimp only at hc
    refine add_overlap_bound mx ov _ ?_ c hc
    intro d hd
    split at hd
    · rcases sentencePackGo_bound mx _ [] [] hs (by simp) d hd with hm | hm
      · simp at hm
      · exact hm
    · exact split_by_words_bound mx content hw d hd

theorem split_long_content_ne_nil (mx ov : Nat) (content : List Char)
    (h : ∃ c ∈ content, isPySpace c = false) :
    split_long_content mx ov content ≠ [] := by
  unfold split_long_content
  split
  · simp
  · dsimp only
    have hchunks : (if 1 < (split_sentences content).length
        then sentencePackGo mx (split_sentences content) [] []
        else split_by_words mx content) ≠ [] := by
      split
      case isTrue h1 =>
        apply sentencePackGo_ne_nil mx _ [] []
          (fun s hs => split_sentences_mem content s hs)
        right; right
        intro hnil
        rw [hnil] at h1
        simp at h1
      case isFalse h1 =>
        obtain ⟨c, hc, hcns⟩ := h
        exact split_by_words_ne_nil mx content (pySplit_ne_nil_of_mem content c hc hcns)
    intro hcontra
    apply hchunks
    have hlen2 := add_overlap_length mx ov (if 1 < (split_sentences content).length
      then sentencePackGo mx (split_sentences content) [] []
      else split_by_words mx content)
    rw [hcontra] at hlen2
    exact List.length_eq_zero.mp hlen2.symm

theorem unitPieces_bound (mx ov : Nat) (u : List Char) (h : WordBound mx u) :
    ∀ c ∈ unitPieces mx ov u, c.length ≤ mx + 1 := by
  intro c hc
  unfold unitPieces at hc
  split at hc
  case isTrue hsp => exact split_long_content_bound mx ov u h.1 h.2 c hc
  case isFalse hsp =>
    simp only [List.mem_singleton] at hc
    subst hc
    have h2 : ¬ (mx < c.length) := by simpa [should_split_content] using hsp
    omega

theorem unitPieces_ne_nil (mx ov : Nat) (u : List Char)
    (h : ∃ c ∈ u, isPySpace c = false) : unitPieces mx ov u ≠ [] := by
  unfold unitPieces
  split
  · exact split_long_content_ne_nil mx ov u h
  · simp

theorem chunkSubsGo_mem (mx ov : Nat) (a : PyArticle) (d : List Char)
    (p : Nat) (b : List Char) :
    ∀ (subs : List PySubsection) (j cnt : Nat) (ch : TextChunk),
    ch ∈ chunkSubsGo mx ov a d p b j cnt subs →
    ch.position = p ∧ ch.chunk_type = ChunkType.subsection ∧
    ch.legal_references ≠ [] ∧
    ((∀ ss ∈ subs, ss.content ≠ [] → WordBound mx (subsectionUnit a ss)) →
      ch.character_count ≤ mx + 1) := by
  intro subs
  induction subs with
  | nil =>
    intro j cnt ch h
    rw [chunkSubsGo] at h
    simp at h
  | cons ss rest ih =>
    intro j cnt ch h
    rw [chunkSubsGo] at h
    by_cases hcont : ss.content ≠ []
    · rw [if_pos hcont] at h
      dsimp only at h
      rcases List.mem_append.mp h with hm | hm
      · obtain ⟨pp, hpp, rfl⟩ := List.mem_map.mp hm
        refine ⟨rfl, rfl, by simp [mkTextChunk], ?_⟩
        intro hwb
        have hp2 : pp.2 ∈ unitPieces mx ov (subsectionUnit a ss) :=
          enum_snd_mem _ _ hpp
        have hb := unitPieces_bound mx ov _ (hwb ss (by simp) hcont) pp.2 hp2
        exact le_trans (pyStrip_length_le _) hb
      · have hr := ih (j + 1) _ ch hm
        exact ⟨hr.1, hr.2.1, hr.2.2.1,
          fun hwb => hr.2.2.2 (fun x hx hx2 => hwb x (List.mem_cons_of_mem ss hx) hx2)⟩
    · rw [if_neg hcont] at h
      have hr := ih (j + 1) cnt ch h
      exact ⟨hr.1, hr.2.1, hr.2.2.1,
        fun hwb => hr.2.2.2 (fun x hx hx2 => hwb x (List.mem_cons_of_mem ss hx) hx2)⟩

theorem chunkNotesGo_mem (mx ov : Nat) (a : PyArticle) (d : List Char)
    (p : Nat) (b : List Char) :
    ∀ (notes : List PyNote) (k cnt : Nat) (ch : TextChunk),
    ch ∈ chunkNotesGo mx ov a d p b k cnt notes →
    ch.position = p ∧ ch.chunk_type = ChunkType.note ∧
    ch.legal_references ≠ [] ∧
    ((∀ nt ∈ notes, nt.content ≠ [] → WordBound mx (noteUnit a nt)) →
      ch.character_count ≤ mx + 1) := by
  intro notes
  induction notes with
  | nil =>
    intro k cnt ch h
    rw [chunkNotesGo] at h
    simp at h
  | cons nt rest ih =>
    intro k cnt ch h
    rw [chunkNotesGo] at h
    by_cases hcont : nt.content ≠ []
    · rw [if_pos hcont] at h
      dsimp only at h
      rcases List.mem_append.mp h with hm | hm
      · obtain ⟨pp, hpp, rfl⟩ := List.mem_map.mp hm
        refine ⟨rfl, rfl, by simp [mkTextChunk], ?_⟩
        intro hwb
        have hp2 : pp.2 ∈ unitPieces mx ov (noteUnit a nt) :=
          enum_snd_mem _ _ hpp
        have hb := unitPieces_bound mx ov _ (hwb nt (by simp) hcont) pp.2 hp2
        exact le_trans (pyStrip_length_le _) hb
      · have hr := ih (k + 1) _ ch hm
        exact ⟨hr.1, hr.2.1, hr.2.2.1,
          fun hwb => hr.2.2.2 (fun x hx hx2 => hwb x (List.mem_cons_of_mem nt hx) hx2)⟩
    · rw [if_neg hcont] at h
      have hr := ih (k + 1) cnt ch h
      exact ⟨hr.1, hr.2.1, hr.2.2.1,
        fun hwb => hr.2.2.2 (fun x hx hx2 => hwb x (List.mem_cons_of_mem nt hx) hx2)⟩

theorem chunk_article_mem (mx ov : Nat) (a : PyArticle) (d : List Char)
    (p : Nat) (b : List Char) (ch : TextChunk)
    (h : ch ∈ chunk_article mx ov a d p b) :
    ch.position = p ∧
    (ch.chunk_type = ChunkType.article ∨ ch.chunk_type = ChunkType.subsection ∨
      ch.chunk_type = ChunkType.note) ∧
    ch.legal_references ≠ [] ∧
    (ArticleWB mx a → ch.character_count ≤ mx + 1) := by
  unfold chunk_article at h
  dsimp only at h
  rcases List.mem_append.mp h with hm | hm
  · rcases List.mem_append.mp hm with hm2 | hm2
    · obtain ⟨pp, hpp, rfl⟩ := List.mem_map.mp hm2
      refine ⟨rfl, Or.inl rfl, by simp [mkTextChunk], ?_⟩
      intro hwb
      have hp2 : pp.2 ∈ articleMainContents mx ov a := enum_snd_mem _ _ hpp
      unfold articleMainContents at hp2
      split at hp2
      case isTrue hcont =>
        have hb := unitPieces_bound mx ov _ (hwb.1 hcont) pp.2 hp2
        exact le_trans (pyStrip_length_le _) hb
      case isFalse => simp at hp2
    · have hr := chunkSubsGo_mem mx ov a d p b a.subsections 0 _ ch hm2
      exact ⟨hr.1, Or.inr (Or.inl hr.2.1), hr.2.2.1, fun hwb => hr.2.2.2 hwb.2.1⟩
  · have hr := chunkNotesGo_mem mx ov a d p b a.notes 0 _ ch hm
    exact ⟨hr.1, Or.inr (Or.inr hr.2.1), hr.2.2.1, fun hwb => hr.2.2.2 hwb.2.2⟩

theorem articleMainContents_ne_nil (mx ov : Nat) (a : PyArticle)
    (h : pyStrip a.content ≠ []) : articleMainContents mx ov a ≠ [] := by
  unfold articleMainContents
  rw [if_pos (show a.content ≠ [] from fun hnil => h (by rw [hnil]; rfl))]
  apply unitPieces_ne_nil
  obtain ⟨c, hc, hcns⟩ := exists_nonspace_of_pyStrip_ne a.content h
  refine ⟨c, ?_, hcns⟩
  unfold articleMainUnit
  split
  · simp [hc]
  · simp [hc]

theorem chunk_article_ne_nil (mx ov : Nat) (a : PyArticle) (d : List Char)
    (p : Nat) (b : List Char) (h : pyStrip a.content ≠ []) :
    chunk_article mx ov a d p b ≠ [] := by
  unfold chunk_article
  dsimp only
  intro hcontra
  obtain ⟨h12, _⟩ := List.append_eq_nil.mp hcontra
  obtain ⟨h1, _⟩ := List.append_eq_nil.mp h12
  have hlen := congrArg List.length h1
  simp only [List.length_map, List.enum_length, List.length_nil] at hlen
  exact articleMainContents_ne_nil mx ov a h (List.length_eq_zero.mp hlen)

theorem chunkChapterArticlesGo_mem (mx ov : Nat) (d : List Char) (p : Nat)
    (b : List Char) :
    ∀ (arts : List PyArticle) (i cnt : Nat) (ch : TextChunk),
    ch ∈ chunkChapterArticlesGo mx ov d p b i cnt arts →
    p + i + 1 ≤ ch.position ∧
    (ch.chunk_type = ChunkType.article ∨ ch.chunk_type = ChunkType.subsection ∨
      ch.chunk_type = ChunkType.note) ∧
    ch.legal_references ≠ [] ∧
    ((∀ a ∈ arts, ArticleWB mx a) → ch.character_count ≤ mx + 1) := by
  intro arts
  induction arts with
  | nil =>
    intro i cnt ch h
    rw [chunkChapterArticlesGo] at h
    simp at h
  | cons a rest ih =>
    intro i cnt ch h
    rw [chunkChapterArticlesGo] at h
    rcases List.mem_append.mp h with hm | hm
    · have hr := chunk_article_mem mx ov a d (p + i + 1) _ ch hm
      exact ⟨by have := hr.1; omega, hr.2.1, hr.2.2.1,
        fun hwb => hr.2.2.2 (hwb a (by simp))⟩
    · have hr := ih (i + 1) _ ch hm
      exact ⟨by have := hr.1; omega, hr.2.1, hr.2.2.1,
        fun hwb => hr.2.2.2 (fun x hx => hwb x (List.mem_cons_of_mem a hx))⟩

theorem chunkChapterArticlesGo_chain (mx ov : Nat) (d : List Char) (p : Nat)
    (b : List Char) :
    ∀ (arts : List PyArticle) (i cnt : Nat),
    (∀ a ∈ arts, pyStrip a.content ≠ []) →
    List.Chain' (fun x y : Nat => x ≤ y)
      ((chunkChapterArticlesGo mx ov d p b i cnt arts).map TextChunk.position) ∧
    (∀ ch ∈ chunkChapterArticlesGo mx ov d p b i cnt arts,
      ch.position ≤ p + i + arts.length) ∧
    arts.length ≤ (chunkChapterArticlesGo mx ov d p b i cnt arts).length := by
  intro arts
  induction arts with
  | nil =>
    intro i cnt _
    rw [chunkChapterArticlesGo]
    exact ⟨List.chain'_nil, by simp, by simp⟩
  | cons a rest ih =>
    intro i cnt h
    rw [chunkChapterArticlesGo]
    have hhere_pos : ∀ ch ∈ chunk_article mx ov a d (p + i + 1)
        (b ++ '_' :: natStr cnt), ch.position = p + i + 1 :=
      fun ch hch => (chunk_article_mem mx ov a d (p + i + 1) _ ch hch).1
    have hhne := chunk_article_ne_nil mx ov a d (p + i + 1)
      (b ++ '_' :: natStr cnt) (h a (by simp))
    have hrest := ih (i + 1)
      (cnt + (chunk_article mx ov a d (p + i + 1) (b ++ '_' :: natStr cnt)).length)
      (fun x hx => h x (List.mem_cons_of_mem a hx))
    refine ⟨?_, ?_, ?_⟩
    · rw [List.map_append, List.chain'_append]
      refine ⟨?_, hrest.1, ?_⟩
      · apply chainle_of_all_eq _ (p + i + 1)
        intro x hx
        obtain ⟨ch, hch, rfl⟩ := List.mem_map.mp hx
        exact hhere_pos ch hch
      · intro x hx y hy
        obtain ⟨ch, hch, rfl⟩ := List.mem_map.mp (getLastq_mem _ x hx)
        obtain ⟨ch2, hch2, rfl⟩ := List.mem_map.mp (headq_mem _ y hy)
        have h1 := hhere_pos ch hch
        have h2 := (chunkChapterArticlesGo_mem mx ov d p b rest (i + 1) _ ch2 hch2).1
        omega
    · intro ch hch
      rcases List.mem_append.mp hch with hm | hm
      · have := hhere_pos ch hm
        simp only [List.length_cons]
        omega
      · have := hrest.2.1 ch hm
        simp only [List.length_cons]
        omega
    · rw [List.length_append]
      have h1 := List.length_pos.mpr hhne
      have h2 := hrest.2.2
      simp only [List.length_cons]
      omega

theorem chunk_chapter_mem (mx ov : Nat) (chap : PyChapter) (d : List Char)
    (p : Nat) (b : List Char) (ch : TextChunk)
    (h : ch ∈ chunk_chapter mx ov chap d p b) :
    p ≤ ch.position ∧ ch.legal_references ≠ [] ∧
    ((∀ a ∈ chap.articles, ArticleWB mx a) →
      (ch.chunk_type = ChunkType.article ∨ ch.chunk_type = ChunkType.subsection ∨
        ch.chunk_type = ChunkType.note) →
      ch.character_count ≤ mx + 1) := by
  unfold chunk_chapter at h
  dsimp only at h
  rcases List.mem_append.mp h with hm | hm
  · split at hm
    · simp only [List.mem_singleton] at hm
      subst hm
      refine ⟨Nat.le_refl p, by simp [mkTextChunk], ?_⟩
      intro _ hty
      rcases hty with h1 | h1 | h1 <;> simp [mkTextChunk] at h1
    · simp at hm
  · have hr := chunkChapterArticlesGo_mem mx ov d p b chap.articles 0 _ ch hm
    exact ⟨by have := hr.1; omega, hr.2.2.1, fun hwb _ => hr.2.2.2 hwb⟩

theorem chunk_chapter_chain_aux (mx ov : Nat) (d : List Char) (p : Nat)
    (b : List Char) (arts : List PyArticle) (cnt : Nat) (T : List TextChunk)
    (hT : ∀ ch ∈ T, ch.position = p)
    (h : ∀ a ∈ arts, pyStrip a.content ≠ []) :
    List.Chain' (fun x y : Nat => x ≤ y)
      ((T ++ chunkChapterArticlesGo mx ov d p b 0 cnt arts).map
        TextChunk.position) ∧
    ∀ ch ∈ T ++ chunkChapterArticlesGo mx ov d p b 0 cnt arts,
      ch.position ≤ p + (T ++ chunkChapterArticlesGo mx ov d p b 0 cnt arts).length := by
  have hgo := chunkChapterArticlesGo_chain mx ov d p b arts 0 cnt h
  constructor
  · rw [List.map_append, List.chain'_append]
    refine ⟨?_, hgo.1, ?_⟩
    · apply chainle_of_all_eq _ p
      intro x hx
      obtain ⟨ch, hch, rfl⟩ := List.mem_map.mp hx
      exact hT ch hch
    · intro x hx y hy
      obtain ⟨ch, hch, rfl⟩ := List.mem_map.mp (getLastq_mem _ x hx)
      obtain ⟨ch2, hch2, rfl⟩ := List.mem_map.mp (headq_mem _ y hy)
      have h1 := hT ch hch
      have h2 := (chunkChapterArticlesGo_mem mx ov d p b arts 0 cnt ch2 hch2).1
      omega
  · intro ch hch
    rw [List.length_append]
    rcases List.mem_append.mp hch with hm | hm
    · have := hT ch hm
      omega
    · have h1 := hgo.2.1 ch hm
      have h2 := hgo.2.2
      omega

theorem chunk_chapter_chain (mx ov : Nat) (chap : PyChapter) (d : List Char)
    (p : Nat) (b : List Char)
    (h : ∀ a ∈ chap.articles, pyStrip a.content ≠ []) :
    List.Chain' (fun x y : Nat => x ≤ y)
      ((chunk_chapter mx ov chap d p b).map TextChunk.position) ∧
    ∀ ch ∈ chunk_chapter mx ov chap d p b,
      ch.position ≤ p + (chunk_chapter mx ov chap d p b).length := by
  unfold chunk_chapter
  dsimp only
  refine chunk_chapter_chain_aux mx ov d p b chap.articles _ _ ?_ h
  intro ch hch
  split at hch
  · simp only [List.mem_singleton] at hch
    subst hch
    rfl
  · simp at hch

theorem chunkChaptersGo_mem (mx ov : Nat) (doc : PyDocument) :
    ∀ (chapters : List PyChapter) (i pc : Nat) (ch : TextChunk),
    ch ∈ chunkChaptersGo mx ov doc i pc chapters →
    pc ≤ ch.position ∧ ch.legal_references ≠ [] ∧
    ((∀ chap ∈ chapters, ∀ a ∈ chap.articles, ArticleWB mx a) →
      (ch.chunk_type = ChunkType.article ∨ ch.chunk_type = ChunkType.subsection ∨
        ch.chunk_type = ChunkType.note) →
      ch.character_count ≤ mx + 1) := by
  intro chapters
  induction chapters with
  | nil =>
    intro i pc ch h
    rw [chunkChaptersGo] at h
    simp at h
  | cons chap rest ih =>
    intro i pc ch h
    rw [chunkChaptersGo] at h
    rcases List.mem_append.mp h with hm | hm
    · have hr := chunk_chapter_mem mx ov chap doc.id pc _ ch hm
      exact ⟨hr.1, hr.2.1, fun hwb hty => hr.2.2 (hwb chap (by simp)) hty⟩
    · have hr := ih (i + 1) _ ch hm
      exact ⟨by have := hr.1; omega, hr.2.1,
        fun hwb hty => hr.2.2 (fun x hx => hwb x (List.mem_cons_of_mem chap hx)) hty⟩

theorem chunkChaptersGo_chain (mx ov : Nat) (doc : PyDocument) :
    ∀ (chapters : List PyChapter) (i pc : Nat),
    (∀ chap ∈ chapters, ∀ a ∈ chap.articles, pyStrip a.content ≠ []) →
    List.Chain' (fun x y : Nat => x ≤ y)
      ((chunkChaptersGo mx ov doc i pc chapters).map TextChunk.position) ∧
    ∀ ch ∈ chunkChaptersGo mx ov doc i pc chapters,
      ch.position ≤ pc + (chunkChaptersGo mx ov doc i pc chapters).length := by
  intro chapters
  induction chapters with
  | nil =>
    intro i pc _
    rw [chunkChaptersGo]
    exact ⟨List.chain'_nil, by simp⟩
  | cons chap rest ih =>
    intro i pc h
    rw [chunkChaptersGo]
    have hhere := chunk_chapter_chain mx ov chap doc.id pc
      (doc.id ++ '_' :: 'c' :: 'h' :: natStr i) (h chap (by simp))
    have hrest := ih (i + 1)
      (pc + (chunk_chapter mx ov chap doc.id pc
        (doc.id ++ '_' :: 'c' :: 'h' :: natStr i)).length)
      (fun x hx => h x (List.mem_cons_of_mem chap hx))
    constructor
    · rw [List.map_append, List.chain'_append]
      refine ⟨hhere.1, hrest.1, ?_⟩
      intro x hx y hy
      obtain ⟨ch, hch, rfl⟩ := List.mem_map.mp (getLastq_mem _ x hx)
      obtain ⟨ch2, hch2, rfl⟩ := List.mem_map.mp (headq_mem _ y hy)
      have h1 := hhere.2 ch hch
      have h2 := (chunkChaptersGo_mem mx ov doc rest (i + 1) _ ch2 hch2).1
      omega
    · intro ch hch
      rw [List.length_append]
      rcases List.mem_append.mp hch with hm | hm
      · have := hhere.2 ch hm
        omega
      · have := hrest.2 ch hm
        omega

theorem chunkStandaloneGo_spec (mx ov : Nat) (doc : PyDocument) :
    ∀ (arts : List PyArticle) (i pc : Nat),
    List.Chain' (fun x y : Nat => x ≤ y)
      ((chunkStandaloneGo mx ov doc i pc arts).map TextChunk.position) ∧
    ∀ ch ∈ chunkStandaloneGo mx ov doc i pc arts,
      pc ≤ ch.position ∧
      ch.position ≤ pc + (chunkStandaloneGo mx ov doc i pc arts).length ∧
      ch.legal_references ≠ [] ∧
      ((∀ a ∈ arts, ArticleWB mx a) → ch.character_count ≤ mx + 1) ∧
      (ch.chunk_type = ChunkType.article ∨ ch.chunk_type = ChunkType.subsection ∨
        ch.chunk_type = ChunkType.note) := by
  intro arts
  induction arts with
  | nil =>
    intro i pc
    rw [chunkStandaloneGo]
    exact ⟨List.chain'_nil, by simp⟩
  | cons a rest ih =>
    intro i pc
    rw [chunkStandaloneGo]
    have hhere := fun ch hch => chunk_article_mem mx ov a doc.id pc
      (doc.id ++ '_' :: 'a' :: 'r' :: 't' :: natStr i) ch hch
    have hrest := ih (i + 1)
      (pc + (chunk_article mx ov a doc.id pc
        (doc.id ++ '_' :: 'a' :: 'r' :: 't' :: natStr i)).length)
    constructor
    · rw [List.map_append, List.chain'_append]
      refine ⟨?_, hrest.1, ?_⟩
      · apply chainle_of_all_eq _ pc
        intro x hx
        obtain ⟨ch, hch, rfl⟩ := List.mem_map.mp hx
        exact (hhere ch hch).1
      · intro x hx y hy
        obtain ⟨ch, hch, rfl⟩ := List.mem_map.mp (getLastq_mem _ x hx)
        obtain ⟨ch2, hch2, rfl⟩ := List.mem_map.mp (headq_mem _ y hy)
        have h1 := (hhere ch hch).1
        have h2 := (hrest.2 ch2 hch2).1
        omega
    · intro ch hch
      rw [List.length_append]
      rcases List.mem_append.mp hch with hm | hm
      · have h1 := hhere ch hm
        refine ⟨by have := h1.1; omega, by have := h1.1; omega, h1.2.2.1,
          fun hwb => h1.2.2.2 (hwb a (by simp)), h1.2.1⟩
      · have h1 := hrest.2 ch hm
        refine ⟨by have := h1.1; omega, by have := h1.2.1; omega, h1.2.2.1,
          fun hwb => h1.2.2.2.1 (fun x hx => hwb x (List.mem_cons_of_mem a hx)),
          h1.2.2.2.2⟩

theorem footChunks_spec (doc : PyDocument) (pc : Nat) :
    ∀ ch ∈ (if doc.footnotes ≠ [] then
      (if footnotesContent doc.footnotes ≠ [] then
        [mkTextChunk (doc.id ++ "_footnotes".toList) doc.id
          (footnotesContent doc.footnotes) ChunkType.footnote pc
          (extract_keywords (footnotesContent doc.footnotes) 3 5)
          ["پاورقی".toList]
          (create_chunk_metadata "footnotes".toList ChunkType.footnote doc.id pc)]
      else [])
    else []),
    ch.position = pc ∧ ch.legal_references ≠ [] ∧
      ch.chunk_type = ChunkType.footnote := by
  intro ch hch
  split at hch
  · split at hch
    · simp only [List.mem_singleton] at hch
      subst hch
      exact ⟨rfl, by simp [mkTextChunk], rfl⟩
    · simp at hch
  · simp at hch

theorem chain_append3 (A B F : List TextChunk) (la lb : Nat)
    (hA : List.Chain' (fun x y : Nat => x ≤ y) (A.map TextChunk.position))
    (hB : List.Chain' (fun x y : Nat => x ≤ y) (B.map TextChunk.position))
    (hAle : ∀ ch ∈ A, ch.position ≤ la)
    (hBge : ∀ ch ∈ B, la ≤ ch.position)
    (hBle : ∀ ch ∈ B, ch.position ≤ lb)
    (hAlb : la ≤ lb)
    (hF : ∀ ch ∈ F, ch.position = lb) :
    List.Chain' (fun x y : Nat => x ≤ y) ((A ++ B ++ F).map TextChunk.position) := by
  rw [List.map_append, List.map_append, List.chain'_append, List.chain'_append]
  refine ⟨⟨hA, hB, ?_⟩, ?_, ?_⟩
  · intro x hx y hy
    obtain ⟨ch, hch, rfl⟩ := List.mem_map.mp (getLastq_mem _ x hx)
    obtain ⟨ch2, hch2, rfl⟩ := List.mem_map.mp (headq_mem _ y hy)
    have h1 := hAle ch hch
    have h2 := hBge ch2 hch2
    omega
  · apply chainle_of_all_eq _ lb
    intro x hx
    obtain ⟨ch, hch, rfl⟩ := List.mem_map.mp hx
    exact hF ch hch
  · intro x hx y hy
    have hxm := getLastq_mem _ x hx
    obtain ⟨ch2, hch2, rfl⟩ := List.mem_map.mp (headq_mem _ y hy)
    rcases List.mem_append.mp hxm with hm | hm
    · obtain ⟨ch, hch, rfl⟩ := List.mem_map.mp hm
      have h1 := hAle ch hch
      have h2 := hF ch2 hch2
      omega
    · obtain ⟨ch, hch, rfl⟩ := List.mem_map.mp hm
      have h1 := hBle ch hch
      have h2 := hF ch2 hch2
      omega

/-- Claim C5: when every article of the document carries (validated)
content that is nonempty after stripping, the position values of the
chunk sequence emitted by chunk_document are non-decreasing in emission
order, and every emitted chunk's legal_references list is non-empty. -/
theorem C5_positions_refs (cfg : ChunkConfig) (doc : PyDocument)
    (h : ∀ a ∈ doc.chapters.flatMap PyChapter.articles ++ doc.standalone_articles,
      pyStrip a.content ≠ []) :
    List.Chain' (fun x y : Nat => x ≤ y)
      ((chunk_document cfg doc).map TextChunk.position) ∧
    ∀ ch ∈ chunk_document cfg doc, ch.legal_references ≠ [] := by
  have hch : ∀ chap ∈ doc.chapters, ∀ a ∈ chap.articles, pyStrip a.content ≠ [] := by
    intro chap hchap a ha
    exact h a (List.mem_append.mpr (Or.inl (List.mem_flatMap.mpr ⟨chap, hchap, ha⟩)))
  have hA := chunkChaptersGo_chain cfg.max_chunk_size cfg.chunk_overlap doc
    doc.chapters 0 0 hch
  have hAmem := fun ch hm => chunkChaptersGo_mem cfg.max_chunk_size cfg.chunk_overlap
    doc doc.chapters 0 0 ch hm
  have hB := chunkStandaloneGo_spec cfg.max_chunk_size cfg.chunk_overlap doc
    doc.standalone_articles 0
    (chunkChaptersGo cfg.max_chunk_size cfg.chunk_overlap doc 0 0 doc.chapters).length
  have hF := footChunks_spec doc
    ((chunkChaptersGo cfg.max_chunk_size cfg.chunk_overlap doc 0 0
        doc.chapters).length +
      (chunkStandaloneGo cfg.max_chunk_size cfg.chunk_overlap doc 0
        (chunkChaptersGo cfg.max_chunk_size cfg.chunk_overlap doc 0 0
          doc.chapters).length doc.standalone_articles).length)
  unfold chunk_document chunkDocumentCore
  dsimp only
  constructor
  · refine chain_append3 _ _ _
      (chunkChaptersGo cfg.max_chunk_size cfg.chunk_overlap doc 0 0
        doc.chapters).length
      ((chunkChaptersGo cfg.max_chunk_size cfg.chunk_overlap doc 0 0
          doc.chapters).length +
        (chunkStandaloneGo cfg.max_chunk_size cfg.chunk_overlap doc 0
          (chunkChaptersGo cfg.max_chunk_size cfg.chunk_overlap doc 0 0
            doc.chapters).length doc.standalone_articles).length)
      hA.1 hB.1 ?_ ?_ ?_ ?_ ?_
    · intro ch hm
      have := hA.2 ch hm
      omega
    · exact fun ch hm => (hB.2 ch hm).1
    · exact fun ch hm => (hB.2 ch hm).2.1
    · omega
    · exact fun ch hm => (hF ch hm).1
  · intro ch hchm
    rcases List.mem_append.mp hchm with hm | hm
    · rcases List.mem_append.mp hm with hm2 | hm2
      · exact (hAmem ch hm2).2.1
      · exact (hB.2 ch hm2).2.2.1
    · exact (hF ch hm).2.1

/-- A two-chapter, one-standalone document used to witness C5. -/
def C5doc : PyDocument :=
  { id := "d".toList, title := "t".toList,
    chapters := [
      { number := "فصل ۱".toList, title := "کلیات".toList,
        articles := [
          { number := "ماده ۱".toList, title := [], content := "متن اول".toList,
            subsections := [], notes := [], keywords := [] }] }],
    standalone_articles := [
      { number := "ماده ۲".toList, title := [], content := "متن دوم".toList,
        subsections := [], notes := [], keywords := [] }],
    footnotes := ["پانوشت".toList] }

theorem C5_positions_refs_witness :
    List.Chain' (fun x y : Nat => x ≤ y)
      ((chunk_document ⟨10, 50, 20⟩ C5doc).map TextChunk.position) ∧
    ∀ ch ∈ chunk_document ⟨10, 50, 20⟩ C5doc, ch.legal_references ≠ [] :=
  C5_positions_refs ⟨10, 50, 20⟩ C5doc (by decide)

theorem chunkQualityTally_eq (cfg : ChunkConfig) (l : List TextChunk) :
    chunkQualityTally cfg l =
      (l.countP (fun ch => decide (cfg.max_chunk_size < ch.character_count)),
       l.countP (fun ch => decide (ch.character_count ≤ cfg.max_chunk_size ∧
         ch.character_count < cfg.min_chunk_size))) := by
  induction l with
  | nil => rfl
  | cons ch rest ih =>
    rw [chunkQualityTally]
    rw [ih]
    by_cases h1 : cfg.max_chunk_size < ch.character_count
    · rw [if_pos h1]
      have h2 : ¬ (ch.character_count ≤ cfg.max_chunk_size ∧
          ch.character_count < cfg.min_chunk_size) := by omega
      simp [List.countP_cons, h1, h2]
    · rw [if_neg h1]
      by_cases h2 : ch.character_count < cfg.min_chunk_size
      · rw [if_pos h2]
        have h3 : ch.character_count ≤ cfg.max_chunk_size ∧
            ch.character_count < cfg.min_chunk_size := ⟨by omega, h2⟩
        simp [List.countP_cons, h1, h3]
      · rw [if_neg h2]
        have h3 : ¬ (ch.character_count ≤ cfg.max_chunk_size ∧
            ch.character_count < cfg.min_chunk_size) := by omega
        simp [List.countP_cons, h1, h3]

/-- A one-chapter document whose chapter title renders to twenty
characters, used to refute the claimed universal size bound. -/
def C1doc : PyDocument :=
  { id := "d".toList, title := "t".toList,
    chapters := [
      { number := "فصل ۱".toList, title := "عنوان طولانی".toList,
        articles := [
          { number := "ماده ۱".toList, title := [], content := "متن".toList,
            subsections := [], notes := [], keywords := [] }] }],
    standalone_articles := [], footnotes := [] }

/-- Claim C1 (counterexample): with max_chunk_size 10 the chapter-title
chunk has 20 characters and is the FIRST of three emitted chunks — not a
final remainder of a greedy split.  Chapter-title chunks bypass the
splitting pipeline entirely, so the claimed bound fails for them. -/
theorem C1_counterexample :
    ((chunk_document ⟨1, 10, 0⟩ C1doc).map (fun ch => ch.character_count)) =
      [20, 6, 3] ∧ ¬ (20 ≤ 10) := by
  constructor
  · simp +decide [C1doc, chunk_document, chunkDocumentCore, chunkChaptersGo,
      chunk_chapter, chunkChapterArticlesGo, chunk_article, articleMainContents,
      articleMainUnit, unitPieces, should_split_content, split_long_content,
      split_sentences, sentSplitGo, isSentPunct, split_by_words, splitByWordsGo,
      pySplit, add_overlap_to_chunks, mkTextChunk, pyStrip, isPySpace,
      chunkSubsGo, chunkNotesGo, chunkStandaloneGo, natStr, pad3, joinSpace,
      List.intercalate, List.intersperse, create_chunk_metadata,
      calculate_chunk_priority, overlapWordCount, takeLastPy]
  · decide

/-- Claim C1 (amended): under the word-size condition `ArticleWB` on
every article, every article, subsection and note chunk emitted by
chunk_document has character_count at most max_chunk_size + 1 (one over
the maximum is reachable through the overlap pass; chapter-title and
footnote chunks are NOT bounded); the emitted chunk list does not depend
on min_chunk_size at all, and the quality tally counts the oversized
chunks and the non-oversized chunks below the minimum without dropping
any chunk. -/
theorem C1_amended (cfg : ChunkConfig) (doc : PyDocument)
    (h : ∀ a ∈ doc.chapters.flatMap PyChapter.articles ++ doc.standalone_articles,
      ArticleWB cfg.max_chunk_size a) :
    (∀ ch ∈ chunk_document cfg doc,
      (ch.chunk_type = ChunkType.article ∨ ch.chunk_type = ChunkType.subsection ∨
        ch.chunk_type = ChunkType.note) →
      ch.character_count ≤ cfg.max_chunk_size + 1) ∧
    (∀ m : Nat, chunk_document ⟨m, cfg.max_chunk_size, cfg.chunk_overlap⟩ doc =
      chunk_document cfg doc) ∧
    chunkQualityTally cfg (chunk_document cfg doc) =
      ((chunk_document cfg doc).countP
          (fun ch => decide (cfg.max_chunk_size < ch.character_count)),
        (chunk_document cfg doc).countP
          (fun ch => decide (ch.character_count ≤ cfg.max_chunk_size ∧
            ch.character_count < cfg.min_chunk_size))) := by
  refine ⟨?_, fun m => rfl, chunkQualityTally_eq cfg _⟩
  have hwbch : ∀ chap ∈ doc.chapters, ∀ a ∈ chap.articles,
      ArticleWB cfg.max_chunk_size a := by
    intro chap hchap a ha
    exact h a (List.mem_append.mpr (Or.inl (List.mem_flatMap.mpr ⟨chap, hchap, ha⟩)))
  have hwbsa : ∀ a ∈ doc.standalone_articles, ArticleWB cfg.max_chunk_size a :=
    fun a ha => h a (List.mem_append.mpr (Or.inr ha))
  intro ch hch hty
  unfold chunk_document chunkDocumentCore at hch
  dsimp only at hch
  rcases List.mem_append.mp hch with hm | hm
  · rcases List.mem_append.mp hm with hm2 | hm2
    · exact (chunkChaptersGo_mem cfg.max_chunk_size cfg.chunk_overlap doc
        doc.chapters 0 0 ch hm2).2.2 hwbch hty
    · exact ((chunkStandaloneGo_spec cfg.max_chunk_size cfg.chunk_overlap doc
        doc.standalone_articles 0 _).2 ch hm2).2.2.2.1 hwbsa
  · have hft := (footChunks_spec doc _ ch hm).2.2
    rcases hty with h1 | h1 | h1 <;> rw [hft] at h1 <;> simp at h1

/-- A single-standalone-article document used to witness C1. -/
def C1wdoc : PyDocument :=
  { id := "d".toList, title := "t".toList, chapters := [],
    standalone_articles := [
      { number := "م".toList, title := [], content := "ب".toList,
        subsections := [], notes := [], keywords := [] }],
    footnotes := [] }

theorem C1_amended_witness :
    (∀ ch ∈ chunk_document ⟨2, 50, 10⟩ C1wdoc,
      (ch.chunk_type = ChunkType.article ∨ ch.chunk_type = ChunkType.subsection ∨
        ch.chunk_type = ChunkType.note) →
      ch.character_count ≤ 50 + 1) ∧
    (∀ m : Nat, chunk_document ⟨m, 50, 10⟩ C1wdoc =
      chunk_document ⟨2, 50, 10⟩ C1wdoc) ∧
    chunkQualityTally ⟨2, 50, 10⟩ (chunk_document ⟨2, 50, 10⟩ C1wdoc) =
      ((chunk_document ⟨2, 50, 10⟩ C1wdoc).countP
          (fun ch => decide (50 < ch.character_count)),
        (chunk_document ⟨2, 50, 10⟩ C1wdoc).countP
          (fun ch => decide (ch.character_count ≤ 50 ∧ ch.character_count < 2))) :=
  C1_amended ⟨2, 50, 10⟩ C1wdoc (by
    simp +decide [ArticleWB, WordBound, C1wdoc, articleMainUnit, pySplit,
      isPySpace, split_sentences, pyStrip, sentSplitGo, isSentPunct])

/-! ### Claim C3: parse_article and empty main content

LegalDocumentParser.parse_article cleans the article text with
PersianTextProcessor.clean_text — whose whitespace collapse leaves a
single-line string with no newline — and then removes the article header
with `re.sub(article_pattern, '', cleaned, count=1)` WITHOUT
re.MULTILINE.  On a newline-free string the anchors of
`^(ماده\s*[^\s]+)\s*[-–—]?\s*(.*)$` are the string start and end, and
the trailing `\s*[-–—]?\s*(.*)$` matches any remainder, so whenever the
header matches, the matched span is the whole string and the
substitution deletes everything. -/

/-- `re.sub(DOCUMENT_CONFIG["article_pattern"], '', t, count=1)` on a
newline-free string: the pattern matches (at the start) iff `t` begins
with `ماده` and some non-whitespace character follows it — the
characters before the first non-whitespace one are whitespace by
definition, matching `\s*[^\s]+` — and then the whole string is
removed. -/
def reSubArticleHeader (t : List Char) : List Char :=
  if ['م','ا','د','ه'].isPrefixOf t ∧ (t.drop 4).any (fun c => !isPySpace c) then []
  else t

/-- `re.sub(DOCUMENT_CONFIG["single_article_pattern"], '', t, count=1)`
on a newline-free string: `^(ماده\s*واحده)\s*[-–—]?\s*(.*)$` matches iff
`t` begins with `ماده`, and `واحده` follows the greedy whitespace run
(shorter backtracks of `\s*` leave a whitespace where `و` must match). -/
def reSubSingleArticleHeader (t : List Char) : List Char :=
  if ['م','ا','د','ه'].isPrefixOf t ∧
      ['و','ا','ح','د','ه'].isPrefixOf ((t.drop 4).dropWhile isPySpace) then []
  else t

/-- The `content` field LegalDocumentParser.parse_article stores in its
(unvalidated) LegalArticle dataclass: header-stripped cleaned text, with
every extracted note content and then every extracted subsection content
removed via `str.replace(x, '')`, whitespace-collapsed and stripped.
The note and subsection contents found by the extraction step are taken
as parameters: they only supply the strings removed here, and the claim
is settled for every possible value of them. -/
def parse_article_main_content (article_text : List Char)
    (noteContents subContents : List (List Char)) : List Char :=
  let cleaned := clean_text article_text
  let content_text :=
    pyStrip (reSubSingleArticleHeader (reSubArticleHeader cleaned))
  let afterNotes := noteContents.foldl (fun acc nc => removeAll nc acc) content_text
  let afterSubs := subContents.foldl (fun acc sc => removeAll sc acc) afterNotes
  pyStrip (collapseWs afterSubs)

theorem removeAll_nil_right (old : List Char) : removeAll old [] = [] := by
  rw [removeAll]
  split
  · rfl
  · rfl

theorem foldl_removeAll_nil (l : List (List Char)) :
    l.foldl (fun acc nc => removeAll nc acc) ([] : List Char) = [] := by
  induction l with
  | nil => rfl
  | cons x xs ih =>
    rw [List.foldl_cons, removeAll_nil_right]
    exact ih

/-- Claim C3 (code bug): on the ordinary article text "ماده ۱ - متن" the
non-MULTILINE header substitution deletes the entire cleaned single-line
text, so whatever the note and subsection extraction returns, the
LegalArticle that parse_article constructs has an empty trimmed main
content.  The parser's plain dataclass performs no validation and
parse_article has no error path, so the empty-content article is kept in
the parsed document instead of being rejected. -/
theorem punctSpace_nopunct (t : List Char)
    (h : ∀ c ∈ t, isPersianPunct c = false) : punctSpace t = t := by
  induction t using punctSpace.induct with
  | case1 => rw [punctSpace]
  | case2 c cs hp ih =>
    rw [h c (by simp)] at hp
    simp at hp
  | case3 c cs hp hs p rest' hmatch hpunct ih =>
    have hpmem : p ∈ c :: cs := by
      have hself : p ∈ cs.dropWhile isPySpace := by
        rw [hmatch]
        simp
      exact List.mem_cons_of_mem c (mem_of_mem_dropWhile _ _ _ hself)
    rw [h p hpmem] at hpunct
    simp at hpunct
  | case4 c cs hp hs p rest' hmatch hpunct ih =>
    rw [punctSpace, if_neg hp, if_pos hs, hmatch]
    simp only [if_neg hpunct]
    rw [ih (fun d hd => h d (List.mem_cons_of_mem c hd))]
  | case5 c cs hp hs hmatch =>
    rw [punctSpace, if_neg hp, if_pos hs, hmatch]
  | case6 c cs hp hs ih =>
    rw [punctSpace, if_neg hp, if_neg hs,
      ih (fun d hd => h d (List.mem_cons_of_mem c hd))]

theorem parenSpace_noparen (t : List Char)
    (h : ∀ c ∈ t, isParen c = false) : parenSpace t = t := by
  induction t using parenSpace.induct with
  | case1 => rw [parenSpace]
  | case2 c cs hp ih =>
    rw [h c (by simp)] at hp
    simp at hp
  | case3 c cs hp hs p rest' hmatch hparen ih =>
    have hpmem : p ∈ c :: cs := by
      have hself : p ∈ cs.dropWhile isPySpace := by
        rw [hmatch]
        simp
      exact List.mem_cons_of_mem c (mem_of_mem_dropWhile _ _ _ hself)
    rw [h p hpmem] at hparen
    simp at hparen
  | case4 c cs hp hs p rest' hmatch hparen ih =>
    rw [parenSpace, if_neg hp, if_pos hs, hmatch]
    simp only [if_neg hparen]
    rw [ih (fun d hd => h d (List.mem_cons_of_mem c hd))]
  | case5 c cs hp hs hmatch =>
    rw [parenSpace, if_neg hp, if_pos hs, hmatch]
  | case6 c cs hp hs ih =>
    rw [parenSpace, if_neg hp, if_neg hs,
      ih (fun d hd => h d (List.mem_cons_of_mem c hd))]

/-- Claim C3 (code bug): on the ordinary article text "ماده ۱ - متن" the
non-MULTILINE header substitution deletes the entire cleaned single-line
text, so whatever the note and subsection extraction returns, the
LegalArticle that parse_article constructs has an empty trimmed main
content.  The parser's plain dataclass performs no validation and
parse_article has no error path, so the empty-content article is kept in
the parsed document instead of being rejected. -/
theorem C3_empty_content_kept (noteContents subContents : List (List Char)) :
    parse_article_main_content
      ['م','ا','د','ه',' ','۱',' ','-',' ','م','ت','ن']
      noteContents subContents = [] := by
  have hnorm : normalize_persian_text
      ['م','ا','د','ه',' ','۱',' ','-',' ','م','ت','ن'] =
      ['م','ا','د','ه',' ','۱',' ','-',' ','م','ت','ن'] := by
    unfold normalize_persian_text
    rw [if_neg (by decide), nfkc_markfree _ (by decide), charMapFold_eq_map]
    decide
  have hcol : collapseWs ['م','ا','د','ه',' ','۱',' ','-',' ','م','ت','ن'] =
      ['م','ا','د','ه',' ','۱',' ','-',' ','م','ت','ن'] := by
    simp +decide [collapseWs, isPySpace, List.dropWhile]
  have hclean : clean_text ['م','ا','د','ه',' ','۱',' ','-',' ','م','ت','ن'] =
      ['م','ا','د','ه',' ','۱',' ','-',' ','م','ت','ن'] := by
    unfold clean_text
    rw [if_neg (by decide), hnorm, hcol, punctSpace_nopunct _ (by decide),
      parenSpace_noparen _ (by decide)]
    decide
  have hstep : pyStrip (reSubSingleArticleHeader (reSubArticleHeader
      (clean_text ['م','ا','د','ه',' ','۱',' ','-',' ','م','ت','ن']))) = [] := by
    rw [hclean]
    decide
  unfold parse_article_main_content
  dsimp only
  rw [hstep, foldl_removeAll_nil, foldl_removeAll_nil]
  rw [show collapseWs [] = [] from by rw [collapseWs]]
  decide

end LegalAssistant